import Mathlib

/-!
Shallow embedding of the spell-detection engine of the fmi-weather-history
repository (src/scripts/analyze_data.py and src/analyze_winter_start.py).

A daily series is a `List (Option ℚ)`: one entry per consecutive calendar
day, `none` standing for a missing (NaN) observation.  Dates are modelled
by list indices; under the DailySeries invariant (one entry per calendar
day, dates strictly increasing) the day at index `i` is `d0 + i` for the
window's first day `d0`.  Python floats are modelled as exact rationals;
Python's `round(x, nd)` is modelled by `pyRound` (nearest value with `nd`
decimals; exact-decimal ties, which never arise in the claims, are taken
upward rather than to even).
-/

namespace FmiWeather

/-- Predicate on one series entry: the value is present and satisfies `p`
(`pd.isna` checks in the source make a missing value fail every
threshold comparison). -/
def presentP (p : ℚ → Bool) : Option ℚ → Bool
  | none => false
  | some v => p v

/-- The cold predicate `temps[i] < WINTER_THRESHOLD_TEMP` with
`WINTER_THRESHOLD_TEMP = 0.0`. -/
def coldB : ℚ → Bool := fun v => decide (v < 0)

/-- The warm predicate `temps[i] >= WINTER_THRESHOLD_TEMP`. -/
def warmB : ℚ → Bool := fun v => decide (0 ≤ v)

/-- Length of the maximal run of present values satisfying `p` at the head
of the list (the inner `while` loops of the scanners). -/
def frontRun (p : ℚ → Bool) : List (Option ℚ) → ℕ
  | [] => 0
  | none :: _ => 0
  | some v :: rest => if p v then frontRun p rest + 1 else 0

/-- A maximal run as produced by the scanners, before detector-specific
statistics are attached: start index, end index (inclusive) and the run's
values in order. -/
structure Run where
  start_idx : ℕ
  end_idx : ℕ
  vals : List ℚ
deriving Repr, DecidableEq

/-- Closing an active run (`duration = i - start_idx`, keep when
`duration >= min_days`).  `acc` holds the run's values most recent first,
as accumulated by the scan. -/
def mkClose (min_days : ℕ) (s : ℕ) (acc : List ℚ) : List Run :=
  if min_days ≤ acc.length then [⟨s, s + acc.length - 1, acc.reverse⟩] else []

/-- The single left-to-right scan shared by `find_all_cold_spells`,
`find_all_warm_spells` and `find_frost_periods`: the source's outer
`while i < len(temps)` loop with the inner run-extension loop expressed as
the `some (start_idx, accumulated values)` state.  A missing value or a
value failing `p` closes the active run; the closing element itself starts
no run (it is missing or fails `p`), so the scan resumes on the rest. -/
def spellsGo (p : ℚ → Bool) (min_days : ℕ) :
    List (Option ℚ) → ℕ → Option (ℕ × List ℚ) → List Run
  | [], _, none => []
  | [], _, some (s, acc) => mkClose min_days s acc
  | none :: rest, i, none => spellsGo p min_days rest (i + 1) none
  | none :: rest, i, some (s, acc) =>
      mkClose min_days s acc ++ spellsGo p min_days rest (i + 1) none
  | some v :: rest, i, none =>
      if p v then spellsGo p min_days rest (i + 1) (some (i, [v]))
      else spellsGo p min_days rest (i + 1) none
  | some v :: rest, i, some (s, acc) =>
      if p v then spellsGo p min_days rest (i + 1) (some (s, v :: acc))
      else mkClose min_days s acc ++ spellsGo p min_days rest (i + 1) none

/-- Python's `round(q, nd)` on the exact rational model. -/
def pyRound (q : ℚ) (nd : ℕ) : ℚ := (round (q * (10 : ℚ) ^ nd) : ℚ) / (10 : ℚ) ^ nd

/-- Python's `min` over a nonempty list (`min_temp = min(min_temp, temps[i])`
accumulation); 0 on the empty list, which the scanners never produce. -/
def listMin : List ℚ → ℚ
  | [] => 0
  | v :: tl => tl.foldl min v

/-- Python's `max` over a nonempty list. -/
def listMax : List ℚ → ℚ
  | [] => 0
  | v :: tl => tl.foldl max v

/-- A cold spell record of `find_all_cold_spells`: start/end as day
indices, `duration = i - start_idx`, `min_temp = round(min(run), 1)`. -/
structure Spell where
  start_idx : ℕ
  end_idx : ℕ
  duration : ℕ
  min_temp : ℚ
deriving Repr, DecidableEq

/-- A warm spell record of `find_all_warm_spells` (statistic is the
rounded maximum). -/
structure WarmSpell where
  start_idx : ℕ
  end_idx : ℕ
  duration : ℕ
  max_temp : ℚ
deriving Repr, DecidableEq

/-- A frost period record of `find_frost_periods` (rounded minimum and
rounded mean of the run's nightly minima). -/
structure FrostPeriod where
  start_idx : ℕ
  end_idx : ℕ
  duration : ℕ
  min_temp : ℚ
  avg_min_temp : ℚ
deriving Repr, DecidableEq

/-- `find_all_cold_spells(temps, dates, min_days)` from
src/scripts/analyze_data.py: guard `len(temps) < min_days`, then the scan
with the cold predicate; each kept maximal run yields a spell with
`min_temp` the rounded minimum of the run. -/
def find_all_cold_spells (temps : List (Option ℚ)) (min_days : ℕ) : List Spell :=
  if temps.length < min_days then []
  else (spellsGo coldB min_days temps 0 none).map
    (fun r => ⟨r.start_idx, r.end_idx, r.vals.length, pyRound (listMin r.vals) 1⟩)

/-- `find_all_warm_spells(temps, dates, min_days)` from
src/scripts/analyze_data.py. -/
def find_all_warm_spells (temps : List (Option ℚ)) (min_days : ℕ) : List WarmSpell :=
  if temps.length < min_days then []
  else (spellsGo warmB min_days temps 0 none).map
    (fun r => ⟨r.start_idx, r.end_idx, r.vals.length, pyRound (listMax r.vals) 1⟩)

/-- `find_frost_periods(daily_data, min_duration)` from
src/scripts/analyze_data.py: the same scan over the nightly-minimum series
with the `< FROST_THRESHOLD = 0.0` predicate and no initial length guard;
statistics are `round(min(temp_mins), 1)` and `round(np.mean(temp_mins), 1)`. -/
def find_frost_periods (min_temps : List (Option ℚ)) (min_duration : ℕ) : List FrostPeriod :=
  (spellsGo coldB min_duration min_temps 0 none).map
    (fun r => ⟨r.start_idx, r.end_idx, r.vals.length, pyRound (listMin r.vals) 1,
               pyRound (r.vals.sum / (r.vals.length : ℚ)) 1⟩)

/-- The sliding-window loop of `find_winter_start` from
src/analyze_winter_start.py: `for i in range(len(temps) - m + 1)`, skip a
window containing NaN, return `dates[i]` (here: the index `i`) at the
first window whose `m` values are all `< 0`. -/
def fws_go (m : ℕ) : List (Option ℚ) → ℕ → Option ℕ
  | [], i => if m = 0 then some i else none
  | x :: rest, i =>
      if (x :: rest).length < m then none
      else if ((x :: rest).take m).all (presentP coldB) then some i
      else fws_go m rest (i + 1)

/-- `find_winter_start(temps, dates, consecutive_days)` from
src/analyze_winter_start.py. -/
def find_winter_start (temps : List (Option ℚ)) (consecutive_days : ℕ) : Option ℕ :=
  if temps.length < consecutive_days then none
  else fws_go consecutive_days temps 0

/-- `calculate_daily_slippery_risk(min_temp, max_temp)` from
src/scripts/analyze_data.py, with `FREEZE_THAW_MIN = FREEZE_THAW_MAX = 0`,
`HIGH_RISK_MIN_RANGE = (-5, 0)`, `HIGH_RISK_MAX_RANGE = (0, 5)`. -/
def calculate_daily_slippery_risk (min_temp max_temp : Option ℚ) : ℚ :=
  match min_temp, max_temp with
  | none, _ => 0
  | _, none => 0
  | some mn, some mx =>
      if mn < 0 ∧ 0 < mx then
        if (-5 < mn ∧ mn < 0) ∧ (0 < mx ∧ mx < 5) then 3 / 2 else 1
      else if (-2 < mn ∧ mn < 2) ∧ (-2 < mx ∧ mx < 2) then 1 / 2
      else 0

/-- The season summary record built by `analyze_winter_season` (zone and
season-label fields, pure formatting, are omitted; dates are day
indices into the input series). -/
structure SeasonSummary where
  season_start : ℕ
  season_end : Option ℕ
  total_days : ℕ
  frost_days : ℕ
  coverage_pct : ℚ
  fragmentation_index : ℚ
  cold_spells_count : ℕ
  warm_interruptions : ℕ
  longest_cold_spell_days : ℕ
  longest_cold_spell_start : ℕ
  coldest_temp : ℚ
  cold_spells : List Spell
  warm_spells : List WarmSpell
deriving Repr, DecidableEq

/-- Placeholder spell used only under a nonemptiness guard (the source
indexes `significant_spells[0]` / `[-1]` directly). -/
def dummySpell : Spell := ⟨0, 0, 0, 0⟩

/-- The success path of `analyze_winter_season`, reached when both the
cold-spell list (minimum 3 days) and its significant (≥ 5 days) sublist
are nonempty; `cold_spells` and `significant_spells` are those two
lists. -/
def buildSeasonSummary (daily_avg : List (Option ℚ)) (is_current_season : Bool)
    (cold_spells significant_spells : List Spell) : SeasonSummary :=
  let season_start := (significant_spells.headD dummySpell).start_idx
  let last_spell_end := (significant_spells.getLastD dummySpell).end_idx
  let season_end := if is_current_season then none else some last_spell_end
  let season_temps := (daily_avg.drop season_start).take (last_spell_end + 1 - season_start)
  let total_days := season_temps.length
  let frost_days := (season_temps.filter (presentP coldB)).length
  let coverage := if 0 < total_days
    then pyRound ((frost_days : ℚ) / (total_days : ℚ) * 100) 1 else 0
  let warm_spells_in_season := find_all_warm_spells season_temps 3
  let warm_days_in_season := (warm_spells_in_season.map (fun s => s.duration)).sum
  let fragmentation := if 0 < total_days
    then pyRound ((warm_days_in_season : ℚ) / (total_days : ℚ)) 2 else 0
  let longest_cold := (cold_spells.drop 1).foldl
    (fun b s => if b.duration < s.duration then s else b) (cold_spells.headD dummySpell)
  let coldest_temp := listMin (cold_spells.map (fun s => s.min_temp))
  { season_start := season_start
    season_end := season_end
    total_days := total_days
    frost_days := frost_days
    coverage_pct := coverage
    fragmentation_index := fragmentation
    cold_spells_count := cold_spells.length
    warm_interruptions := warm_spells_in_season.length
    longest_cold_spell_days := longest_cold.duration
    longest_cold_spell_start := longest_cold.start_idx
    coldest_temp := coldest_temp
    cold_spells := cold_spells
    warm_spells := warm_spells_in_season.map (fun s =>
      { s with start_idx := season_start + s.start_idx
               end_idx := season_start + s.end_idx }) }

/-- `analyze_winter_season(daily_avg, year, is_current_season)` from
src/scripts/analyze_data.py (the `year` argument only formats the season
label and is omitted).  `MIN_COLD_SPELL_DAYS = 3`,
`WINTER_CONSECUTIVE_DAYS = 5`.  The window statistics use the sub-series
from the first significant spell's start to the last significant spell's
end, inclusive; the warm spells found on that sub-series carry
window-relative indices in the source's `dates` argument and are shifted
back to absolute indices here, exactly as the source's date labels are
absolute. -/
def analyze_winter_season (daily_avg : List (Option ℚ)) (is_current_season : Bool) :
    Option SeasonSummary :=
  let cold_spells := find_all_cold_spells daily_avg 3
  if cold_spells.isEmpty then none
  else
    let significant_spells := cold_spells.filter (fun s => 5 ≤ s.duration)
    if significant_spells.isEmpty then none
    else some (buildSeasonSummary daily_avg is_current_season cold_spells significant_spells)

/-- A return-winter event of `find_return_winters`: start day index,
`duration_days = j - i` and the (unrounded) minimum over the cold run. -/
structure RWEvent where
  start_idx : ℕ
  duration_days : ℕ
  min_temperature : ℚ
deriving Repr, DecidableEq

/-- The spring-onset loop of `find_return_winters`:
`for i in range(len(spring_data) - 5 + 1)`, first window of 5 consecutive
daily means all `>= 0` (a NaN in the window makes the `all` fail). -/
def onset_go : List (Option ℚ) → ℕ → Option ℕ
  | [], _ => none
  | x :: rest, i =>
      if (x :: rest).length < 5 then none
      else if ((x :: rest).take 5).all (presentP warmB) then some i
      else onset_go rest (i + 1)

/-- Spring onset over the Mar 1 - May 31 slice (index 0 = first day of the
slice). -/
def find_spring_onset (spring : List (Option ℚ)) : Option ℕ := onset_go spring 0

/-- The cold-spell loop of `find_return_winters` over the days after the
onset: `while i < len(after_spring) - 3 + 1`, a window of
`ANOMALY_CONSECUTIVE_DAYS = 3` all `< 0` starts an event that is then
extended while values stay `< 0`; the loop resumes past the run.  The
fuel argument (initially the list length, an upper bound on the number of
loop steps since every step consumes at least one element) makes the
index-jumping `while` loop structurally recursive. -/
def rwScanGo : ℕ → List (Option ℚ) → ℕ → List RWEvent
  | 0, _, _ => []
  | fuel + 1, l, i =>
      if l.length < 3 then []
      else if (l.take 3).all (presentP coldB) then
        let n := frontRun coldB l
        ⟨i, n, listMin ((l.take n).filterMap id)⟩ :: rwScanGo fuel (l.drop n) (i + n)
      else rwScanGo fuel l.tail (i + 1)

/-- The return-winter cold-spell scan, started with sufficient fuel. -/
def rwScan (l : List (Option ℚ)) (i0 : ℕ) : List RWEvent := rwScanGo l.length l i0

/-- One spring's processing inside `find_return_winters` from
src/scripts/analyze_data.py: `spring` is the Mar 1 - May 31 daily-mean
slice for one year (index 0 = its first day); fewer than 10 rows or no
spring onset yields no events, otherwise cold spells are searched on the
days strictly after the onset day. -/
def find_return_winters_year (spring : List (Option ℚ)) : List RWEvent :=
  if spring.length < 10 then []
  else
    match find_spring_onset spring with
    | none => []
    | some p => rwScan (spring.drop (p + 1)) (p + 1)

/-! Basic lemmas about `frontRun` and list indexing. -/

theorem getD_drop (l : List (Option ℚ)) (n k : ℕ) :
    (l.drop n).getD k none = l.getD (n + k) none := by
  induction l generalizing n k with
  | nil => simp [List.getD]
  | cons x rest ih =>
    cases n with
    | zero => simp
    | succ n' =>
      have h : n' + 1 + k = (n' + k) + 1 := by omega
      simp only [List.drop_succ_cons, h, List.getD_cons_succ]
      exact ih n' k

theorem frontRun_le_length (p : ℚ → Bool) (l : List (Option ℚ)) :
    frontRun p l ≤ l.length := by
  induction l with
  | nil => simp [frontRun]
  | cons x rest ih =>
    cases x with
    | none => simp [frontRun]
    | some v =>
      by_cases hv : p v
      · simpa [frontRun, hv] using ih
      · simp [frontRun, hv]

theorem frontRun_lt (p : ℚ → Bool) (l : List (Option ℚ)) (j : ℕ)
    (hj : j < frontRun p l) : presentP p (l.getD j none) = true := by
  induction l generalizing j with
  | nil => simp [frontRun] at hj
  | cons x rest ih =>
    cases x with
    | none => simp [frontRun] at hj
    | some v =>
      by_cases hv : p v
      · cases j with
        | zero => simpa [presentP]
        | succ j' =>
          simp only [frontRun, hv, if_true] at hj
          simpa using ih j' (by omega)
      · simp [frontRun, hv] at hj

theorem frontRun_stop (p : ℚ → Bool) (l : List (Option ℚ)) :
    presentP p (l.getD (frontRun p l) none) = false := by
  induction l with
  | nil => simp [frontRun, List.getD, presentP]
  | cons x rest ih =>
    cases x with
    | none => simp [frontRun, presentP]
    | some v =>
      by_cases hv : p v
      · simpa [frontRun, hv] using ih
      · simp [frontRun, hv, presentP]

theorem le_frontRun (p : ℚ → Bool) (l : List (Option ℚ)) (k : ℕ)
    (h : ∀ j, j < k → presentP p (l.getD j none) = true) : k ≤ frontRun p l := by
  by_contra hlt
  have h1 := h (frontRun p l) (by omega)
  rw [frontRun_stop] at h1
  exact Bool.false_ne_true h1

theorem take_frontRun_filterMap (p : ℚ → Bool) (l : List (Option ℚ)) (k : ℕ)
    (hk : k ≤ frontRun p l) : ((l.take k).filterMap id).length = k := by
  induction l generalizing k with
  | nil =>
    simp only [frontRun] at hk
    simp [Nat.le_zero.mp hk]
  | cons x rest ih =>
    cases k with
    | zero => simp
    | succ k' =>
      cases x with
      | none => simp [frontRun] at hk
      | some v =>
        by_cases hv : p v
        · simp only [frontRun, hv, if_true] at hk
          simp [List.take_succ_cons, List.filterMap_cons, ih k' (by omega)]
        · simp [frontRun, hv] at hk

/-! Decomposition equations for the scan: an active run absorbs exactly
the front run of the remaining list and the scan resumes just past it. -/

theorem spellsGo_some (p : ℚ → Bool) (m : ℕ) :
    ∀ (l : List (Option ℚ)) (i s : ℕ) (acc : List ℚ),
    spellsGo p m l i (some (s, acc)) =
      mkClose m s (((l.take (frontRun p l)).filterMap id).reverse ++ acc) ++
        spellsGo p m (l.drop (frontRun p l + 1)) (i + (frontRun p l + 1)) none := by
  intro l
  induction l with
  | nil => intro i s acc; simp [spellsGo, frontRun]
  | cons x rest ih =>
    intro i s acc
    cases x with
    | none => simp [spellsGo, frontRun]
    | some v =>
      by_cases hv : p v
      · have hfr : frontRun p (some v :: rest) = frontRun p rest + 1 := by
          simp [frontRun, hv]
        rw [hfr]
        have hgo : spellsGo p m (some v :: rest) i (some (s, acc)) =
            spellsGo p m rest (i + 1) (some (s, v :: acc)) := by
          simp [spellsGo, hv]
        rw [hgo, ih (i + 1) s (v :: acc)]
        have htake : ((some v :: rest).take (frontRun p rest + 1)).filterMap id =
            v :: (rest.take (frontRun p rest)).filterMap id := by
          simp [List.take_succ_cons, List.filterMap_cons]
        have hdrop : (some v :: rest).drop (frontRun p rest + 1 + 1) =
            rest.drop (frontRun p rest + 1) := by
          simp
        rw [htake, hdrop]
        have hidx : i + 1 + (frontRun p rest + 1) = i + (frontRun p rest + 1 + 1) := by omega
        rw [hidx]
        simp
      · simp [spellsGo, hv, frontRun]

theorem spellsGo_nil (p : ℚ → Bool) (m i : ℕ) :
    spellsGo p m [] i none = [] := rfl

theorem spellsGo_skip_none (p : ℚ → Bool) (m i : ℕ) (rest : List (Option ℚ)) :
    spellsGo p m (none :: rest) i none = spellsGo p m rest (i + 1) none := rfl

theorem spellsGo_skip_notp (p : ℚ → Bool) (m i : ℕ) (v : ℚ) (rest : List (Option ℚ))
    (hv : p v = false) :
    spellsGo p m (some v :: rest) i none = spellsGo p m rest (i + 1) none := by
  simp [spellsGo, hv]

theorem spellsGo_skip (p : ℚ → Bool) (m i : ℕ) (x : Option ℚ) (rest : List (Option ℚ))
    (hx : presentP p x = false) :
    spellsGo p m (x :: rest) i none = spellsGo p m rest (i + 1) none := by
  cases x with
  | none => rfl
  | some v => exact spellsGo_skip_notp p m i v rest (by simpa [presentP] using hx)

theorem spellsGo_start (p : ℚ → Bool) (m i : ℕ) (v : ℚ) (rest : List (Option ℚ))
    (hv : p v = true) :
    spellsGo p m (some v :: rest) i none =
      mkClose m i
          (((some v :: rest).take (frontRun p (some v :: rest))).filterMap id).reverse ++
        spellsGo p m ((some v :: rest).drop (frontRun p (some v :: rest) + 1))
          (i + (frontRun p (some v :: rest) + 1)) none := by
  have hgo : spellsGo p m (some v :: rest) i none =
      spellsGo p m rest (i + 1) (some (i, [v])) := by
    simp [spellsGo, hv]
  rw [hgo, spellsGo_some]
  have hfr : frontRun p (some v :: rest) = frontRun p rest + 1 := by
    simp [frontRun, hv]
  rw [hfr]
  have htake : ((some v :: rest).take (frontRun p rest + 1)).filterMap id =
      v :: (rest.take (frontRun p rest)).filterMap id := by
    simp [List.take_succ_cons, List.filterMap_cons]
  have hdrop : (some v :: rest).drop (frontRun p rest + 1 + 1) =
      rest.drop (frontRun p rest + 1) := by simp
  rw [htake, hdrop]
  have hidx : i + 1 + (frontRun p rest + 1) = i + (frontRun p rest + 1 + 1) := by omega
  rw [hidx]
  simp

/-! Structure of the runs produced by the scan: every emitted run meets the
minimum duration, lies inside the scanned list, has consistent indices, and
consists entirely of present values satisfying the predicate. -/

theorem spellsGo_mem (p : ℚ → Bool) (m : ℕ) :
    ∀ (n : ℕ) (l : List (Option ℚ)), l.length ≤ n →
    ∀ (i : ℕ) (r : Run), r ∈ spellsGo p m l i none →
      m ≤ r.vals.length ∧ 1 ≤ r.vals.length ∧ i ≤ r.start_idx ∧
      r.end_idx + 1 = r.start_idx + r.vals.length ∧ r.end_idx < i + l.length ∧
      ∀ j, r.start_idx ≤ j → j ≤ r.end_idx →
        presentP p (l.getD (j - i) none) = true := by
  intro n
  induction n with
  | zero =>
    intro l hl i r hr
    rw [List.eq_nil_of_length_eq_zero (Nat.le_zero.mp hl)] at hr
    simp [spellsGo] at hr
  | succ n ih =>
    intro l hl i r hr
    cases l with
    | nil => simp [spellsGo] at hr
    | cons x rest =>
      by_cases hx : presentP p x = true
      · obtain ⟨v, rfl⟩ : ∃ v, x = some v := by
          cases x with
          | none => simp [presentP] at hx
          | some v => exact ⟨v, rfl⟩
        have hv : p v = true := by simpa [presentP] using hx
        set L := some v :: rest with hL
        set fr := frontRun p L with hfr
        have hfr1 : 1 ≤ fr := by
          simp only [hfr, hL, frontRun, hv, if_true]
          omega
        have hfrlen : fr ≤ L.length := frontRun_le_length p L
        rw [spellsGo_start p m i v rest hv] at hr
        rcases List.mem_append.mp hr with hcl | htl
        · set acc0 := ((L.take fr).filterMap id).reverse with hacc0
          have hlen0 : acc0.length = fr := by
            simp only [hacc0, List.length_reverse]
            exact take_frontRun_filterMap p L fr le_rfl
          simp only [mkClose, hlen0] at hcl
          by_cases hm : m ≤ fr
          · simp only [hm, if_true, List.mem_singleton] at hcl
            subst hcl
            have hvals : acc0.reverse.length = fr := by simp [hlen0]
            refine ⟨by simpa [hvals] using hm, by simpa [hvals] using hfr1, le_rfl,
              by simp [hvals]; omega, by simp; omega, ?_⟩
            intro j hj1 hj2
            simp only at hj1 hj2 ⊢
            exact frontRun_lt p L (j - i) (by omega)
          · simp [hm] at hcl
        · have hlen' : (L.drop (fr + 1)).length ≤ n := by
            simp only [List.length_drop]
            have : L.length ≤ n + 1 := hl
            omega
          obtain ⟨h1, h2, h3, h4, h5, h6⟩ := ih (L.drop (fr + 1)) hlen' (i + (fr + 1)) r htl
          by_cases hcut : fr + 1 ≤ L.length
          · refine ⟨h1, h2, by omega, h4, ?_, ?_⟩
            · have : (L.drop (fr + 1)).length = L.length - (fr + 1) := by
                simp [List.length_drop]
              omega
            · intro j hj1 hj2
              have hij : i + (fr + 1) ≤ j := by omega
              have := h6 j hj1 hj2
              rw [getD_drop] at this
              have harith : fr + 1 + (j - (i + (fr + 1))) = j - i := by omega
              rwa [harith] at this
          · have : L.drop (fr + 1) = [] := List.drop_eq_nil_of_le (by omega)
            rw [this] at htl
            simp [spellsGo] at htl
      · rw [spellsGo_skip p m i x rest (by simpa using hx)] at hr
        obtain ⟨h1, h2, h3, h4, h5, h6⟩ :=
          ih rest (by simpa using Nat.le_of_succ_le_succ (by simpa using hl)) (i + 1) r hr
        refine ⟨h1, h2, by omega, h4, by simp; omega, ?_⟩
        intro j hj1 hj2
        have hij : i + 1 ≤ j := by omega
        have := h6 j hj1 hj2
        have harith : j - i = (j - (i + 1)) + 1 := by omega
        rw [harith, List.getD_cons_succ]
        exact this

theorem spellsGo_mem' (p : ℚ → Bool) (m : ℕ) (l : List (Option ℚ)) (i : ℕ) (r : Run)
    (hr : r ∈ spellsGo p m l i none) :
    m ≤ r.vals.length ∧ 1 ≤ r.vals.length ∧ i ≤ r.start_idx ∧
      r.end_idx + 1 = r.start_idx + r.vals.length ∧ r.end_idx < i + l.length ∧
      ∀ j, r.start_idx ≤ j → j ≤ r.end_idx →
        presentP p (l.getD (j - i) none) = true :=
  spellsGo_mem p m l.length l le_rfl i r hr

theorem spellsGo_eq_nil_of_short (p : ℚ → Bool) (m : ℕ) (l : List (Option ℚ)) (i : ℕ)
    (hshort : l.length < m) : spellsGo p m l i none = [] := by
  rw [List.eq_nil_iff_forall_not_mem]
  intro r hr
  obtain ⟨h1, _, h3, h4, h5, _⟩ := spellsGo_mem' p m l i r hr
  omega

theorem spellsGo_cover (p : ℚ → Bool) :
    ∀ (n : ℕ) (l : List (Option ℚ)), l.length ≤ n →
    ∀ (i j : ℕ), presentP p (l.getD j none) = true →
      ∃ r ∈ spellsGo p 1 l i none, r.start_idx ≤ i + j ∧ i + j ≤ r.end_idx := by
  intro n
  induction n with
  | zero =>
    intro l hl i j hj
    rw [List.eq_nil_of_length_eq_zero (Nat.le_zero.mp hl)] at hj
    simp [List.getD, presentP] at hj
  | succ n ih =>
    intro l hl i j hj
    cases l with
    | nil => simp [List.getD, presentP] at hj
    | cons x rest =>
      by_cases hx : presentP p x = true
      · obtain ⟨v, rfl⟩ : ∃ v, x = some v := by
          cases x with
          | none => simp [presentP] at hx
          | some v => exact ⟨v, rfl⟩
        have hv : p v = true := by simpa [presentP] using hx
        set L := some v :: rest with hL
        set fr := frontRun p L with hfr
        have hfr1 : 1 ≤ fr := by
          simp only [hfr, hL, frontRun, hv, if_true]; omega
        rcases lt_trichotomy j fr with hlt | heq | hgt
        · set acc0 := ((L.take fr).filterMap id).reverse with hacc0
          have hlen0 : acc0.length = fr := by
            simp only [hacc0, List.length_reverse]
            exact take_frontRun_filterMap p L fr le_rfl
          refine ⟨⟨i, i + acc0.length - 1, acc0.reverse⟩, ?_, ?_, ?_⟩
          · rw [spellsGo_start p 1 i v rest hv]
            apply List.mem_append_left
            simp only [mkClose, ← hfr, ← hacc0]
            rw [if_pos (by omega)]
            exact List.mem_singleton.mpr rfl
          · show i ≤ i + j
            omega
          · show i + j ≤ i + acc0.length - 1
            omega
        · rw [heq] at hj
          rw [frontRun_stop p L] at hj
          exact absurd hj (by simp)
        · have hlen' : (L.drop (fr + 1)).length ≤ n := by
            simp only [List.length_drop]
            have : L.length ≤ n + 1 := hl
            omega
          have hj' : presentP p ((L.drop (fr + 1)).getD (j - (fr + 1)) none) = true := by
            rw [getD_drop]
            have : fr + 1 + (j - (fr + 1)) = j := by omega
            rwa [this]
          obtain ⟨r, hrmem, hc1, hc2⟩ := ih (L.drop (fr + 1)) hlen' (i + (fr + 1)) (j - (fr + 1)) hj'
          refine ⟨r, ?_, by omega, by omega⟩
          rw [spellsGo_start p 1 i v rest hv]
          exact List.mem_append_right _ hrmem
      · have hxf : presentP p x = false := by simpa using hx
        cases j with
        | zero =>
          rw [List.getD_cons_zero] at hj
          rw [hxf] at hj
          exact absurd hj (by simp)
        | succ j' =>
          rw [List.getD_cons_succ] at hj
          obtain ⟨r, hrmem, hc1, hc2⟩ :=
            ih rest (by simpa using Nat.le_of_succ_le_succ (by simpa using hl)) (i + 1) j' hj
          refine ⟨r, ?_, by omega, by omega⟩
          rw [spellsGo_skip p 1 i x rest hxf]
          exact hrmem

theorem spellsGo_pairwise (p : ℚ → Bool) (m : ℕ) :
    ∀ (n : ℕ) (l : List (Option ℚ)), l.length ≤ n → ∀ i,
      List.Pairwise (fun r1 r2 => r1.end_idx < r2.start_idx)
        (spellsGo p m l i none) := by
  intro n
  induction n with
  | zero =>
    intro l hl i
    rw [List.eq_nil_of_length_eq_zero (Nat.le_zero.mp hl)]
    simp [spellsGo]
  | succ n ih =>
    intro l hl i
    cases l with
    | nil => simp [spellsGo]
    | cons x rest =>
      by_cases hx : presentP p x = true
      · obtain ⟨v, rfl⟩ : ∃ v, x = some v := by
          cases x with
          | none => simp [presentP] at hx
          | some v => exact ⟨v, rfl⟩
        have hv : p v = true := by simpa [presentP] using hx
        set L := some v :: rest with hL
        set fr := frontRun p L with hfr
        have hfr1 : 1 ≤ fr := by
          simp only [hfr, hL, frontRun, hv, if_true]; omega
        have hlen' : (L.drop (fr + 1)).length ≤ n := by
          simp only [List.length_drop]
          have : L.length ≤ n + 1 := hl
          omega
        rw [spellsGo_start p m i v rest hv]
        rw [List.pairwise_append]
        refine ⟨?_, by simpa [← hfr] using ih (L.drop (fr + 1)) hlen' (i + (fr + 1)), ?_⟩
        · simp only [mkClose, ← hfr]
          split
          · exact List.pairwise_singleton _ _
          · exact List.Pairwise.nil
        · intro a ha b hb
          have hlen0 : (((L.take fr).filterMap id).reverse).length = fr := by
            rw [List.length_reverse]
            exact take_frontRun_filterMap p L fr le_rfl
          simp only [mkClose, ← hfr] at ha
          by_cases hm : m ≤ (((L.take fr).filterMap id).reverse).length
          · rw [if_pos hm] at ha
            have ha' := List.mem_singleton.mp ha
            obtain ⟨_, _, hb3, _, _, _⟩ := spellsGo_mem' p m _ _ b hb
            have hend : a.end_idx = i + fr - 1 := by rw [ha']; simp [hlen0]
            have hff : fr = frontRun p (some v :: rest) := by rw [hfr, hL]
            rw [hff] at hend
            have hfr1' : 1 ≤ frontRun p (some v :: rest) := by rw [← hff]; exact hfr1
            omega
          · rw [if_neg hm] at ha
            exact absurd ha (List.not_mem_nil a)
      · have hxf : presentP p x = false := by simpa using hx
        rw [spellsGo_skip p m i x rest hxf]
        exact ih rest (by simpa using Nat.le_of_succ_le_succ (by simpa using hl)) (i + 1)

/-! The minimum-duration check inside the scan is a pure filter over the
unfiltered (minimum 1) run set. -/

theorem mkClose_filter (m : ℕ) (hm : 1 ≤ m) (s : ℕ) (acc : List ℚ) :
    mkClose m s acc = (mkClose 1 s acc).filter (fun r => decide (m ≤ r.vals.length)) := by
  simp only [mkClose]
  by_cases h1 : 1 ≤ acc.length
  · rw [if_pos h1]
    by_cases hm2 : m ≤ acc.length
    · rw [if_pos hm2]
      simp [List.filter_cons, hm2]
    · rw [if_neg hm2]
      simp [List.filter_cons, hm2]
  · rw [if_neg h1, if_neg (by omega)]
    simp

theorem spellsGo_filter (p : ℚ → Bool) (m : ℕ) (hm : 1 ≤ m) :
    ∀ (l : List (Option ℚ)) (i : ℕ) (st : Option (ℕ × List ℚ)),
      spellsGo p m l i st =
        (spellsGo p 1 l i st).filter (fun r => decide (m ≤ r.vals.length)) := by
  intro l
  induction l with
  | nil =>
    intro i st
    match st with
    | none => simp [spellsGo]
    | some (s, acc) =>
      show mkClose m s acc = _
      exact mkClose_filter m hm s acc
  | cons x rest ih =>
    intro i st
    match x, st with
    | none, none =>
      show spellsGo p m rest (i + 1) none = _
      exact ih (i + 1) none
    | none, some (s, acc) =>
      show mkClose m s acc ++ spellsGo p m rest (i + 1) none = _
      rw [show spellsGo p 1 (none :: rest) i (some (s, acc)) =
            mkClose 1 s acc ++ spellsGo p 1 rest (i + 1) none from rfl]
      rw [List.filter_append, mkClose_filter m hm s acc, ih (i + 1) none]
    | some v, none =>
      by_cases hv : p v
      · simp only [spellsGo, hv, if_true]
        exact ih (i + 1) (some (i, [v]))
      · simp only [spellsGo, hv, if_false]
        exact ih (i + 1) none
    | some v, some (s, acc) =>
      by_cases hv : p v
      · simp only [spellsGo, hv, if_true]
        exact ih (i + 1) (some (s, v :: acc))
      · simp only [spellsGo, hv, Bool.false_eq_true, if_false]
        rw [List.filter_append, mkClose_filter m hm s acc, ih (i + 1) none]

/-- The record-building step of `find_all_cold_spells`. -/
def coldSpellOfRun (r : Run) : Spell :=
  ⟨r.start_idx, r.end_idx, r.vals.length, pyRound (listMin r.vals) 1⟩

theorem find_all_cold_spells_eq (temps : List (Option ℚ)) (md : ℕ) :
    find_all_cold_spells temps md =
      if temps.length < md then []
      else (spellsGo coldB md temps 0 none).map coldSpellOfRun := rfl

theorem find_all_cold_spells_filter_one (temps : List (Option ℚ)) (m : ℕ) (hm : 1 ≤ m) :
    find_all_cold_spells temps m =
      (find_all_cold_spells temps 1).filter (fun s => decide (m ≤ s.duration)) := by
  rw [find_all_cold_spells_eq, find_all_cold_spells_eq]
  by_cases hshort : temps.length < m
  · rw [if_pos hshort]
    by_cases h1 : temps.length < 1
    · rw [if_pos h1]
      simp
    · rw [if_neg h1]
      rw [List.filter_map]
      have : (spellsGo coldB 1 temps 0 none).filter
          ((fun s => decide (m ≤ s.duration)) ∘ coldSpellOfRun) = [] := by
        rw [List.filter_eq_nil_iff]
        intro r hr
        obtain ⟨_, _, h3, h4, h5, _⟩ := spellsGo_mem' coldB 1 temps 0 r hr
        simp only [Function.comp_apply, coldSpellOfRun, decide_eq_true_eq]
        omega
      rw [this]
      simp
  · rw [if_neg hshort]
    have h1 : ¬ temps.length < 1 := by omega
    rw [if_neg h1]
    rw [spellsGo_filter coldB m hm temps 0 none, List.filter_map]
    rfl

/-! Equivalence of the sliding-window first-occurrence scan with the head
of the extraction scan. -/

theorem frontRun_eq_zero (p : ℚ → Bool) (x : Option ℚ) (rest : List (Option ℚ))
    (hx : presentP p x = false) : frontRun p (x :: rest) = 0 := by
  cases x with
  | none => rfl
  | some v =>
    have : p v = false := by simpa [presentP] using hx
    simp [frontRun, this]

theorem frontRun_cons_true (p : ℚ → Bool) (v : ℚ) (rest : List (Option ℚ))
    (hv : p v = true) : frontRun p (some v :: rest) = frontRun p rest + 1 := by
  simp [frontRun, hv]

theorem take_all_iff (p : ℚ → Bool) :
    ∀ (l : List (Option ℚ)) (m : ℕ), m ≤ l.length →
      (((l.take m).all (presentP p)) = true ↔ m ≤ frontRun p l) := by
  intro l
  induction l with
  | nil =>
    intro m hm
    have : m = 0 := by simpa using hm
    subst this
    simp [frontRun]
  | cons x rest ih =>
    intro m hm
    cases m with
    | zero => simp
    | succ k =>
      rw [List.take_succ_cons, List.all_cons]
      by_cases hx : presentP p x = true
      · obtain ⟨v, rfl⟩ : ∃ v, x = some v := by
          cases x with
          | none => simp [presentP] at hx
          | some v => exact ⟨v, rfl⟩
        have hv : p v = true := by simpa [presentP] using hx
        rw [hx, frontRun_cons_true p v rest hv]
        simp only [Bool.true_and, Nat.succ_le_succ_iff]
        exact ih k (by simpa using hm)
      · have hxf : presentP p x = false := by simpa using hx
        rw [hxf, frontRun_eq_zero p x rest hxf]
        simp

theorem fws_none_of_short (m : ℕ) (hm : 1 ≤ m) (l : List (Option ℚ)) (i : ℕ)
    (hshort : l.length < m) : fws_go m l i = none := by
  cases l with
  | nil =>
    show (if m = 0 then some i else none) = none
    rw [if_neg (by omega)]
  | cons x rest =>
    show (if (x :: rest).length < m then none else _) = none
    rw [if_pos hshort]

theorem fws_go_skip (m : ℕ) (hm : 1 ≤ m) :
    ∀ (l : List (Option ℚ)) (i : ℕ), frontRun coldB l < m →
      fws_go m l i =
        fws_go m (l.drop (frontRun coldB l + 1)) (i + (frontRun coldB l + 1)) := by
  intro l
  induction l with
  | nil =>
    intro i _
    simp only [List.drop_nil]
    show (if m = 0 then some i else none) = (if m = 0 then some _ else none)
    rw [if_neg (by omega), if_neg (by omega)]
  | cons x rest ih =>
    intro i h
    by_cases hx : presentP coldB x = true
    · obtain ⟨v, rfl⟩ : ∃ v, x = some v := by
        cases x with
        | none => simp [presentP] at hx
        | some v => exact ⟨v, rfl⟩
      have hv : coldB v = true := by simpa [presentP] using hx
      rw [frontRun_cons_true coldB v rest hv] at h ⊢
      by_cases hlen : (some v :: rest).length < m
      · rw [fws_none_of_short m hm _ i hlen]
        rw [fws_none_of_short m hm _ _ (by simp at hlen ⊢; omega)]
      · have hwin : ((some v :: rest).take m).all (presentP coldB) = false := by
          have := take_all_iff coldB (some v :: rest) m (by omega)
          rw [frontRun_cons_true coldB v rest hv] at this
          rcases Bool.eq_false_or_eq_true (((some v :: rest).take m).all (presentP coldB))
            with ht | hf
          · exact absurd (this.mp ht) (by omega)
          · exact hf
        have hstep : fws_go m (some v :: rest) i = fws_go m rest (i + 1) := by
          show (if (some v :: rest).length < m then none
            else if ((some v :: rest).take m).all (presentP coldB) then some i
            else fws_go m rest (i + 1)) = _
          rw [if_neg hlen, hwin]
          simp
        rw [hstep, ih (i + 1) (by omega)]
        have harith : i + 1 + (frontRun coldB rest + 1) =
            i + (frontRun coldB rest + 1 + 1) := by omega
        rw [harith]
        rfl
    · have hxf : presentP coldB x = false := by simpa using hx
      rw [frontRun_eq_zero coldB x rest hxf] at h ⊢
      by_cases hlen : (x :: rest).length < m
      · rw [fws_none_of_short m hm _ i hlen]
        rw [fws_none_of_short m hm _ _ (by simp at hlen ⊢; omega)]
      · have hwin : ((x :: rest).take m).all (presentP coldB) = false := by
          have hm' : m ≤ (x :: rest).length := by omega
          obtain ⟨k, hk⟩ : ∃ k, m = k + 1 := ⟨m - 1, by omega⟩
          subst hk
          rw [List.take_succ_cons, List.all_cons, hxf]
          simp
        show (if (x :: rest).length < m then none
          else if ((x :: rest).take m).all (presentP coldB) then some i
          else fws_go m rest (i + 1)) = _
        rw [if_neg hlen, hwin]
        simp

theorem fws_eq_head (m : ℕ) (hm : 1 ≤ m) :
    ∀ (n : ℕ) (l : List (Option ℚ)), l.length ≤ n → ∀ i,
      fws_go m l i = ((spellsGo coldB m l i none).head?).map Run.start_idx := by
  intro n
  induction n with
  | zero =>
    intro l hl i
    rw [List.eq_nil_of_length_eq_zero (Nat.le_zero.mp hl)]
    show (if m = 0 then some i else none) = _
    rw [if_neg (by omega)]
    rfl
  | succ n ih =>
    intro l hl i
    cases l with
    | nil =>
      show (if m = 0 then some i else none) = _
      rw [if_neg (by omega)]
      rfl
    | cons x rest =>
      by_cases hx : presentP coldB x = true
      · obtain ⟨v, rfl⟩ : ∃ v, x = some v := by
          cases x with
          | none => simp [presentP] at hx
          | some v => exact ⟨v, rfl⟩
        have hv : coldB v = true := by simpa [presentP] using hx
        set L := some v :: rest with hL
        have hfr : frontRun coldB L = frontRun coldB rest + 1 :=
          frontRun_cons_true coldB v rest hv
        have hfrlen : frontRun coldB L ≤ L.length := frontRun_le_length coldB L
        by_cases hmfr : m ≤ frontRun coldB L
        · have hlen : ¬ L.length < m := by omega
          have hwin : ((L.take m).all (presentP coldB)) = true :=
            (take_all_iff coldB L m (by omega)).mpr hmfr
          have hlhs : fws_go m L i = some i := by
            show (if L.length < m then none
              else if (L.take m).all (presentP coldB) then some i
              else fws_go m rest (i + 1)) = some i
            rw [if_neg hlen, hwin]
            simp
          rw [hlhs, spellsGo_start coldB m i v rest hv]
          have hlen0 : ((((L.take (frontRun coldB L)).filterMap id)).reverse).length =
              frontRun coldB L := by
            rw [List.length_reverse]
            exact take_frontRun_filterMap coldB L _ le_rfl
          rw [show mkClose m i (((L.take (frontRun coldB L)).filterMap id).reverse) =
              [⟨i, i + (((L.take (frontRun coldB L)).filterMap id).reverse).length - 1,
                (((L.take (frontRun coldB L)).filterMap id).reverse).reverse⟩] from by
            simp only [mkClose]
            rw [if_pos (by omega)]]
          rfl
        · have hskip := fws_go_skip m hm L i (by omega)
          have hlen' : (L.drop (frontRun coldB L + 1)).length ≤ n := by
            simp only [List.length_drop]
            have h1 : 1 ≤ frontRun coldB L := by omega
            have h2 : L.length ≤ n + 1 := hl
            omega
          rw [hskip, ih _ hlen' (i + (frontRun coldB L + 1))]
          rw [spellsGo_start coldB m i v rest hv]
          have hclose : mkClose m i (((L.take (frontRun coldB L)).filterMap id).reverse) = [] := by
            simp only [mkClose]
            rw [if_neg ?_]
            rw [List.length_reverse, take_frontRun_filterMap coldB L _ le_rfl]
            omega
          rw [hclose, List.nil_append]
      · have hxf : presentP coldB x = false := by simpa using hx
        rw [spellsGo_skip coldB m i x rest hxf]
        by_cases hlen : (x :: rest).length < m
        · rw [fws_none_of_short m hm _ i hlen]
          rw [spellsGo_eq_nil_of_short coldB m rest (i + 1) (by simp at hlen ⊢; omega)]
          rfl
        · have hwin : ((x :: rest).take m).all (presentP coldB) = false := by
            obtain ⟨k, hk⟩ : ∃ k, m = k + 1 := ⟨m - 1, by omega⟩
            subst hk
            rw [List.take_succ_cons, List.all_cons, hxf]
            simp
          have hstep : fws_go m (x :: rest) i = fws_go m rest (i + 1) := by
            show (if (x :: rest).length < m then none
              else if ((x :: rest).take m).all (presentP coldB) then some i
              else fws_go m rest (i + 1)) = _
            rw [if_neg hlen, hwin]
            simp
          rw [hstep]
          exact ih rest (by simpa using Nat.le_of_succ_le_succ (by simpa using hl)) (i + 1)

/-- The spec's running example series: daily means
`[1, -1, -2, -3, -4, -5, 2]` on consecutive dates starting 2024-01-01
(index 0 = 2024-01-01, so index `i` = January `i+1`, 2024). -/
def demoSeries : List (Option ℚ) :=
  [some 1, some (-1), some (-2), some (-3), some (-4), some (-5), some 2]

/-- C1: for every daily series and every minimum duration `m ≥ 1`, the
sliding-window first-occurrence scan `find_winter_start` returns exactly
the start (index = date) of the first spell produced by extraction-mode
`find_all_cold_spells` with `min_days = m`, and returns `none` exactly
when extraction mode yields no run of length ≥ `m`. -/
theorem claim_C1 (temps : List (Option ℚ)) (m : ℕ) (hm : 1 ≤ m) :
    find_winter_start temps m =
        ((find_all_cold_spells temps m).head?).map Spell.start_idx ∧
      (find_winter_start temps m = none ↔ find_all_cold_spells temps m = []) := by
  have hmain : find_winter_start temps m =
      ((find_all_cold_spells temps m).head?).map Spell.start_idx := by
    rw [find_winter_start, find_all_cold_spells_eq]
    by_cases hshort : temps.length < m
    · rw [if_pos hshort, if_pos hshort]
      rfl
    · rw [if_neg hshort, if_neg hshort]
      rw [fws_eq_head m hm temps.length temps le_rfl 0]
      rw [List.head?_map]
      cases (spellsGo coldB m temps 0 none).head? with
      | none => rfl
      | some r => rfl
  refine ⟨hmain, ?_⟩
  rw [hmain]
  constructor
  · intro h
    rcases hhd : (find_all_cold_spells temps m).head? with _ | r
    · exact List.head?_eq_none_iff.mp hhd
    · rw [hhd] at h
      exact absurd h (by simp)
  · intro h
    rw [h]
    rfl

theorem claim_C1_witness :
    find_winter_start demoSeries 5 =
        ((find_all_cold_spells demoSeries 5).head?).map Spell.start_idx ∧
      (find_winter_start demoSeries 5 = none ↔ find_all_cold_spells demoSeries 5 = []) :=
  claim_C1 demoSeries 5 (by decide)

/-! Boundary behaviour at exactly the minimum duration, on a uniform
run of cold days. -/

theorem frontRun_replicate (p : ℚ → Bool) (c : ℚ) (hc : p c = true) (k : ℕ) :
    frontRun p (List.replicate k (some c)) = k := by
  induction k with
  | zero => rfl
  | succ j ih => simp [List.replicate_succ, frontRun, hc, ih]

theorem filterMap_id_replicate (c : ℚ) (k : ℕ) :
    (List.replicate k (some c) : List (Option ℚ)).filterMap id = List.replicate k c := by
  induction k with
  | zero => rfl
  | succ j ih => simp [List.replicate_succ, List.filterMap_cons, ih]

theorem foldl_min_replicate (c : ℚ) (k : ℕ) :
    (List.replicate k c).foldl min c = c := by
  induction k with
  | zero => rfl
  | succ j ih => simpa [List.replicate_succ, min_self] using ih

theorem listMin_replicate (c : ℚ) (k : ℕ) (hk : 1 ≤ k) :
    listMin (List.replicate k c) = c := by
  obtain ⟨j, rfl⟩ : ∃ j, k = j + 1 := ⟨k - 1, by omega⟩
  rw [List.replicate_succ]
  show (List.replicate j c).foldl min c = c
  exact foldl_min_replicate c j

theorem spellsGo_cold_replicate (m : ℕ) (hm : 1 ≤ m) :
    spellsGo coldB m (List.replicate m (some (-1))) 0 none =
      [⟨0, m - 1, List.replicate m (-1)⟩] := by
  obtain ⟨k, rfl⟩ : ∃ k, m = k + 1 := ⟨m - 1, by omega⟩
  have hc : coldB (-1) = true := by decide
  rw [List.replicate_succ, spellsGo_start coldB (k + 1) 0 (-1) (List.replicate k (some (-1))) hc]
  rw [← List.replicate_succ]
  have hfr : frontRun coldB (List.replicate (k + 1) (some (-1))) = k + 1 :=
    frontRun_replicate coldB (-1) hc (k + 1)
  rw [hfr]
  have htake : (List.replicate (k + 1) (some (-1)) : List (Option ℚ)).take (k + 1) =
      List.replicate (k + 1) (some (-1)) := by
    rw [List.take_of_length_le (by simp)]
  rw [htake, filterMap_id_replicate, List.reverse_replicate]
  have hdrop : (List.replicate (k + 1) (some (-1)) : List (Option ℚ)).drop (k + 1 + 1) = [] :=
    List.drop_eq_nil_of_le (by simp)
  rw [hdrop]
  show mkClose (k + 1) 0 (List.replicate (k + 1) (-1)) ++ [] = _
  rw [List.append_nil]
  simp only [mkClose, List.length_replicate]
  rw [if_pos le_rfl, List.reverse_replicate]
  norm_num

/-- C2: on the spec's example series (index 0 = 2024-01-01, so index 1 =
2024-01-02 and index 5 = 2024-01-06), `find_all_cold_spells` with minimum
duration 5 yields exactly the spell 2024-01-02 .. 2024-01-06 of duration 5
and `min_temp = -5`; minimum duration 6 yields nothing; and in general a
uniform cold run of exactly `m` days yields that spell while a run of
`m - 1` days yields none. -/
theorem claim_C2 :
    find_all_cold_spells demoSeries 5 =
        [{ start_idx := 1, end_idx := 5, duration := 5, min_temp := -5 }] ∧
      find_all_cold_spells demoSeries 6 = [] ∧
      ∀ m, 1 ≤ m →
        find_all_cold_spells (List.replicate m (some (-1))) m =
            [{ start_idx := 0, end_idx := m - 1, duration := m, min_temp := -1 }] ∧
          find_all_cold_spells (List.replicate (m - 1) (some (-1))) m = [] := by
  refine ⟨?_, ?_, ?_⟩
  · rw [find_all_cold_spells_eq, if_neg (by decide),
      show spellsGo coldB 5 demoSeries 0 none = [⟨1, 5, [-1, -2, -3, -4, -5]⟩] from by decide]
    simp only [List.map_cons, List.map_nil, coldSpellOfRun]
    norm_num [show listMin [(-1 : ℚ), -2, -3, -4, -5] = -5 from by decide, pyRound, round_eq]
  · rw [find_all_cold_spells_eq, if_neg (by decide),
      show spellsGo coldB 6 demoSeries 0 none = [] from by decide]
    rfl
  · intro m hm
    constructor
    · rw [find_all_cold_spells_eq]
      rw [if_neg (by simp)]
      rw [spellsGo_cold_replicate m hm]
      simp only [List.map_cons, List.map_nil, coldSpellOfRun]
      rw [List.length_replicate, listMin_replicate (-1) m hm]
      norm_num [pyRound, round_eq]
    · rw [find_all_cold_spells_eq]
      rw [if_pos (by simp; omega)]

theorem claim_C2_witness :
    find_all_cold_spells (List.replicate 4 (some (-1))) 4 =
        [{ start_idx := 0, end_idx := 3, duration := 4, min_temp := -1 }] ∧
      find_all_cold_spells (List.replicate 3 (some (-1))) 4 = [] :=
  claim_C2.2.2 4 (by decide)

/-- C8: `calculate_daily_slippery_risk` is the pure per-day classifier:
1.5 iff the present minimum lies strictly in (-5,0) and the present
maximum strictly in (0,5); 1.0 iff min < 0 < max but not both in those
near-zero ranges; 0.5 iff both lie strictly in (-2,2) and it is not the
case that min < 0 < max; and 0 exactly otherwise — whenever either value
is missing, or both are present but neither the freeze-thaw condition
min < 0 < max nor the near-zero (-2,2) condition holds; and min = -3.0
with max = 2.0 classifies as 1.5. -/
theorem claim_C8 :
    (∀ mn mx : Option ℚ,
      (calculate_daily_slippery_risk mn mx = 3 / 2 ↔
        ∃ a b, mn = some a ∧ mx = some b ∧
          ((-5 < a ∧ a < 0) ∧ (0 < b ∧ b < 5))) ∧
      (calculate_daily_slippery_risk mn mx = 1 ↔
        ∃ a b, mn = some a ∧ mx = some b ∧ a < 0 ∧ 0 < b ∧
          ¬((-5 < a ∧ a < 0) ∧ (0 < b ∧ b < 5))) ∧
      (calculate_daily_slippery_risk mn mx = 1 / 2 ↔
        ∃ a b, mn = some a ∧ mx = some b ∧
          ((-2 < a ∧ a < 2) ∧ (-2 < b ∧ b < 2)) ∧ ¬(a < 0 ∧ 0 < b)) ∧
      ((mn = none ∨ mx = none) → calculate_daily_slippery_risk mn mx = 0) ∧
      (calculate_daily_slippery_risk mn mx = 0 ↔
        (mn = none ∨ mx = none) ∨
          ∃ a b, mn = some a ∧ mx = some b ∧ ¬(a < 0 ∧ 0 < b) ∧
            ¬((-2 < a ∧ a < 2) ∧ (-2 < b ∧ b < 2)))) ∧
    calculate_daily_slippery_risk (some (-3)) (some 2) = 3 / 2 := by
  constructor
  · intro mn mx
    cases mn with
    | none =>
      have h0 : calculate_daily_slippery_risk none mx = 0 := by cases mx <;> rfl
      refine ⟨?_, ?_, ?_, fun _ => h0,
        ⟨fun _ => Or.inl (Or.inl rfl), fun _ => h0⟩⟩ <;>
        · constructor
          · intro h
            rw [h0] at h
            exact absurd h (by norm_num)
          · rintro ⟨a, b, ha, hb, h⟩
            exact absurd ha (by simp)
    | some a =>
    cases mx with
    | none =>
      refine ⟨?_, ?_, ?_, fun _ => rfl,
        ⟨fun _ => Or.inl (Or.inr rfl), fun _ => rfl⟩⟩ <;>
        · constructor
          · intro h
            exact absurd h (by norm_num [calculate_daily_slippery_risk])
          · rintro ⟨a', b', ha, hb, h⟩
            exact absurd hb (by simp)
    | some b =>
      have hrisk : calculate_daily_slippery_risk (some a) (some b) =
          if a < 0 ∧ 0 < b then
            if (-5 < a ∧ a < 0) ∧ (0 < b ∧ b < 5) then 3 / 2 else 1
          else if (-2 < a ∧ a < 2) ∧ (-2 < b ∧ b < 2) then 1 / 2
          else 0 := rfl
      by_cases h1 : a < 0 ∧ 0 < b
      · by_cases h2 : (-5 < a ∧ a < 0) ∧ (0 < b ∧ b < 5)
        · rw [hrisk, if_pos h1, if_pos h2]
          refine ⟨⟨fun _ => ⟨a, b, rfl, rfl, h2⟩, fun _ => rfl⟩, ?_, ?_, ?_, ?_⟩
          · constructor
            · intro h
              exact absurd h (by norm_num)
            · rintro ⟨a', b', ha, hb, _, _, hn⟩
              cases Option.some.inj ha
              cases Option.some.inj hb
              exact absurd h2 hn
          · constructor
            · intro h
              exact absurd h (by norm_num)
            · rintro ⟨a', b', ha, hb, _, hn⟩
              cases Option.some.inj ha
              cases Option.some.inj hb
              exact absurd h1 hn
          · rintro (h | h) <;> exact absurd h (by simp)
          · constructor
            · intro h
              exact absurd h (by norm_num)
            · rintro (hmiss | ⟨a', b', ha, hb, hn1, hn2⟩)
              · rcases hmiss with h | h <;> exact absurd h (by simp)
              · cases Option.some.inj ha
                cases Option.some.inj hb
                exact absurd h1 hn1
        · rw [hrisk, if_pos h1, if_neg h2]
          refine ⟨?_, ⟨fun _ => ⟨a, b, rfl, rfl, h1.1, h1.2, h2⟩, fun _ => rfl⟩, ?_, ?_, ?_⟩
          · constructor
            · intro h
              exact absurd h (by norm_num)
            · rintro ⟨a', b', ha, hb, hn⟩
              cases Option.some.inj ha
              cases Option.some.inj hb
              exact absurd hn h2
          · constructor
            · intro h
              exact absurd h (by norm_num)
            · rintro ⟨a', b', ha, hb, _, hn⟩
              cases Option.some.inj ha
              cases Option.some.inj hb
              exact absurd h1 hn
          · rintro (h | h) <;> exact absurd h (by simp)
          · constructor
            · intro h
              exact absurd h (by norm_num)
            · rintro (hmiss | ⟨a', b', ha, hb, hn1, hn2⟩)
              · rcases hmiss with h | h <;> exact absurd h (by simp)
              · cases Option.some.inj ha
                cases Option.some.inj hb
                exact absurd h1 hn1
      · by_cases h3 : (-2 < a ∧ a < 2) ∧ (-2 < b ∧ b < 2)
        · rw [hrisk, if_neg h1, if_pos h3]
          refine ⟨?_, ?_, ⟨fun _ => ⟨a, b, rfl, rfl, h3, h1⟩, fun _ => rfl⟩, ?_, ?_⟩
          · constructor
            · intro h
              exact absurd h (by norm_num)
            · rintro ⟨a', b', ha, hb, hn⟩
              cases Option.some.inj ha
              cases Option.some.inj hb
              exact absurd ⟨hn.1.2, hn.2.1⟩ h1
          · constructor
            · intro h
              exact absurd h (by norm_num)
            · rintro ⟨a', b', ha, hb, hc1, hc2, _⟩
              cases Option.some.inj ha
              cases Option.some.inj hb
              exact absurd ⟨hc1, hc2⟩ h1
          · rintro (h | h) <;> exact absurd h (by simp)
          · constructor
            · intro h
              exact absurd h (by norm_num)
            · rintro (hmiss | ⟨a', b', ha, hb, hn1, hn2⟩)
              · rcases hmiss with h | h <;> exact absurd h (by simp)
              · cases Option.some.inj ha
                cases Option.some.inj hb
                exact absurd h3 hn2
        · rw [hrisk, if_neg h1, if_neg h3]
          refine ⟨?_, ?_, ?_, ?_, ⟨fun _ => Or.inr ⟨a, b, rfl, rfl, h1, h3⟩, fun _ => rfl⟩⟩
          · constructor
            · intro h
              exact absurd h (by norm_num)
            · rintro ⟨a', b', ha, hb, hn⟩
              cases Option.some.inj ha
              cases Option.some.inj hb
              exact absurd ⟨hn.1.2, hn.2.1⟩ h1
          · constructor
            · intro h
              exact absurd h (by norm_num)
            · rintro ⟨a', b', ha, hb, hc1, hc2, _⟩
              cases Option.some.inj ha
              cases Option.some.inj hb
              exact absurd ⟨hc1, hc2⟩ h1
          · constructor
            · intro h
              exact absurd h (by norm_num)
            · rintro ⟨a', b', ha, hb, hc, _⟩
              cases Option.some.inj ha
              cases Option.some.inj hb
              exact absurd hc h3
          · rintro (h | h) <;> exact absurd h (by simp)
  · norm_num [calculate_daily_slippery_risk]

theorem claim_C8_witness :
    calculate_daily_slippery_risk none (some 1) = 0 :=
  (claim_C8.1 none (some 1)).2.2.2.1 (Or.inl rfl)

/-! Lifting the run-structure facts to the exported spell records. -/

theorem presentP_cold_exists (x : Option ℚ) (h : presentP coldB x = true) :
    ∃ v, x = some v ∧ v < 0 := by
  cases x with
  | none => simp [presentP] at h
  | some v =>
    refine ⟨v, rfl, ?_⟩
    simpa [presentP, coldB] using h

theorem presentP_warm_exists (x : Option ℚ) (h : presentP warmB x = true) :
    ∃ v, x = some v ∧ 0 ≤ v := by
  cases x with
  | none => simp [presentP] at h
  | some v =>
    refine ⟨v, rfl, ?_⟩
    simpa [presentP, warmB] using h

theorem find_all_cold_spells_mem (temps : List (Option ℚ)) (md : ℕ) (s : Spell)
    (hs : s ∈ find_all_cold_spells temps md) :
    md ≤ s.duration ∧ 1 ≤ s.duration ∧ s.end_idx + 1 = s.start_idx + s.duration ∧
      s.end_idx < temps.length ∧
      ∀ j, s.start_idx ≤ j → j ≤ s.end_idx → ∃ v, temps.getD j none = some v ∧ v < 0 := by
  rw [find_all_cold_spells_eq] at hs
  by_cases hshort : temps.length < md
  · rw [if_pos hshort] at hs
    exact absurd hs (List.not_mem_nil s)
  · rw [if_neg hshort] at hs
    obtain ⟨r, hr, rfl⟩ := List.mem_map.mp hs
    obtain ⟨h1, h2, h3, h4, h5, h6⟩ := spellsGo_mem' coldB md temps 0 r hr
    refine ⟨h1, h2, h4, by simpa using h5, ?_⟩
    intro j hj1 hj2
    have := h6 j hj1 hj2
    rw [Nat.sub_zero] at this
    exact presentP_cold_exists _ this

theorem find_all_warm_spells_mem (temps : List (Option ℚ)) (md : ℕ) (s : WarmSpell)
    (hs : s ∈ find_all_warm_spells temps md) :
    md ≤ s.duration ∧ 1 ≤ s.duration ∧ s.end_idx + 1 = s.start_idx + s.duration ∧
      s.end_idx < temps.length ∧
      ∀ j, s.start_idx ≤ j → j ≤ s.end_idx → ∃ v, temps.getD j none = some v ∧ 0 ≤ v := by
  rw [show find_all_warm_spells temps md =
      if temps.length < md then []
      else (spellsGo warmB md temps 0 none).map
        (fun r => ⟨r.start_idx, r.end_idx, r.vals.length, pyRound (listMax r.vals) 1⟩)
    from rfl] at hs
  by_cases hshort : temps.length < md
  · rw [if_pos hshort] at hs
    exact absurd hs (List.not_mem_nil s)
  · rw [if_neg hshort] at hs
    obtain ⟨r, hr, rfl⟩ := List.mem_map.mp hs
    obtain ⟨h1, h2, h3, h4, h5, h6⟩ := spellsGo_mem' warmB md temps 0 r hr
    refine ⟨h1, h2, h4, by simpa using h5, ?_⟩
    intro j hj1 hj2
    have := h6 j hj1 hj2
    rw [Nat.sub_zero] at this
    exact presentP_warm_exists _ this

theorem find_frost_periods_mem (temps : List (Option ℚ)) (md : ℕ) (fp : FrostPeriod)
    (hfp : fp ∈ find_frost_periods temps md) :
    md ≤ fp.duration ∧ 1 ≤ fp.duration ∧ fp.end_idx + 1 = fp.start_idx + fp.duration ∧
      fp.end_idx < temps.length ∧
      ∀ j, fp.start_idx ≤ j → j ≤ fp.end_idx → ∃ v, temps.getD j none = some v ∧ v < 0 := by
  rw [find_frost_periods] at hfp
  obtain ⟨r, hr, rfl⟩ := List.mem_map.mp hfp
  obtain ⟨h1, h2, h3, h4, h5, h6⟩ := spellsGo_mem' coldB md temps 0 r hr
  refine ⟨h1, h2, h4, by simpa using h5, ?_⟩
  intro j hj1 hj2
  have := h6 j hj1 hj2
  rw [Nat.sub_zero] at this
  exact presentP_cold_exists _ this

/-- C4: every spell reported by the extraction scans
(`find_all_cold_spells`, `find_all_warm_spells`, `find_frost_periods`)
satisfies `duration = (end - start).days + 1` (with day `i` falling on
calendar date `d0 + i` this is exactly
`(d0 + end) - (d0 + start) + 1 = duration`), and no day of the spell is
missing — every day from start to end inclusive carries a present value
satisfying the scan's predicate, so a run never contains or spans a
missing day. -/
theorem claim_C4 (temps : List (Option ℚ)) (md : ℕ) :
    (∀ s ∈ find_all_cold_spells temps md,
      s.duration = s.end_idx - s.start_idx + 1 ∧ s.start_idx ≤ s.end_idx ∧
        (∀ d0 : ℤ, (d0 + s.end_idx) - (d0 + s.start_idx) + 1 = (s.duration : ℤ)) ∧
        ∀ j, s.start_idx ≤ j → j ≤ s.end_idx →
          ∃ v, temps.getD j none = some v ∧ v < 0) ∧
    (∀ w ∈ find_all_warm_spells temps md,
      w.duration = w.end_idx - w.start_idx + 1 ∧ w.start_idx ≤ w.end_idx ∧
        (∀ d0 : ℤ, (d0 + w.end_idx) - (d0 + w.start_idx) + 1 = (w.duration : ℤ)) ∧
        ∀ j, w.start_idx ≤ j → j ≤ w.end_idx →
          ∃ v, temps.getD j none = some v ∧ 0 ≤ v) ∧
    (∀ fp ∈ find_frost_periods temps md,
      fp.duration = fp.end_idx - fp.start_idx + 1 ∧ fp.start_idx ≤ fp.end_idx ∧
        (∀ d0 : ℤ, (d0 + fp.end_idx) - (d0 + fp.start_idx) + 1 = (fp.duration : ℤ)) ∧
        ∀ j, fp.start_idx ≤ j → j ≤ fp.end_idx →
          ∃ v, temps.getD j none = some v ∧ v < 0) := by
  refine ⟨?_, ?_, ?_⟩
  · intro s hs
    obtain ⟨h1, h2, h3, h4, h5⟩ := find_all_cold_spells_mem temps md s hs
    have hse : s.start_idx ≤ s.end_idx := by omega
    refine ⟨by omega, hse, ?_, h5⟩
    intro d0
    have : (s.end_idx : ℤ) - s.start_idx + 1 = (s.duration : ℤ) := by omega
    omega
  · intro w hw
    obtain ⟨h1, h2, h3, h4, h5⟩ := find_all_warm_spells_mem temps md w hw
    have hse : w.start_idx ≤ w.end_idx := by omega
    refine ⟨by omega, hse, ?_, h5⟩
    intro d0
    have : (w.end_idx : ℤ) - w.start_idx + 1 = (w.duration : ℤ) := by omega
    omega
  · intro fp hfp
    obtain ⟨h1, h2, h3, h4, h5⟩ := find_frost_periods_mem temps md fp hfp
    have hse : fp.start_idx ≤ fp.end_idx := by omega
    refine ⟨by omega, hse, ?_, h5⟩
    intro d0
    have : (fp.end_idx : ℤ) - fp.start_idx + 1 = (fp.duration : ℤ) := by omega
    omega

theorem claim_C4_witness :
    ∃ v, demoSeries.getD 3 none = some v ∧ v < 0 := by
  have hmem : ({ start_idx := 1, end_idx := 5, duration := 5, min_temp := -5 } : Spell) ∈
      find_all_cold_spells demoSeries 5 := by
    rw [find_all_cold_spells_eq, if_neg (by decide),
      show spellsGo coldB 5 demoSeries 0 none = [⟨1, 5, [-1, -2, -3, -4, -5]⟩] from by decide]
    simp only [List.map_cons, List.map_nil, coldSpellOfRun, List.mem_singleton]
    norm_num [show listMin [(-1 : ℚ), -2, -3, -4, -5] = -5 from by decide, pyRound, round_eq]
  exact ((claim_C4 demoSeries 5).1 _ hmem).2.2.2 3 (by norm_num) (by norm_num)

/-! Partition of present days by the complementary extraction scans. -/

theorem find_all_cold_spells_cover (temps : List (Option ℚ)) (j : ℕ) (v : ℚ)
    (hj : temps.getD j none = some v) (hv : v < 0) :
    ∃ s ∈ find_all_cold_spells temps 1, s.start_idx ≤ j ∧ j ≤ s.end_idx := by
  have hp : presentP coldB (temps.getD j none) = true := by
    rw [hj]
    simpa [presentP, coldB] using hv
  obtain ⟨r, hr, hc1, hc2⟩ := spellsGo_cover coldB temps.length temps le_rfl 0 j hp
  rw [Nat.zero_add] at hc1 hc2
  have hlen : ¬ temps.length < 1 := by
    rcases Nat.eq_zero_or_pos temps.length with h0 | h1
    · rw [List.eq_nil_of_length_eq_zero h0] at hj
      simp [List.getD] at hj
    · omega
  refine ⟨coldSpellOfRun r, ?_, hc1, hc2⟩
  rw [find_all_cold_spells_eq, if_neg hlen]
  exact List.mem_map_of_mem coldSpellOfRun hr

/-- The record-building step of `find_all_warm_spells`. -/
def warmSpellOfRun (r : Run) : WarmSpell :=
  ⟨r.start_idx, r.end_idx, r.vals.length, pyRound (listMax r.vals) 1⟩

theorem find_all_warm_spells_eq (temps : List (Option ℚ)) (md : ℕ) :
    find_all_warm_spells temps md =
      if temps.length < md then []
      else (spellsGo warmB md temps 0 none).map warmSpellOfRun := rfl

theorem find_all_warm_spells_cover (temps : List (Option ℚ)) (j : ℕ) (v : ℚ)
    (hj : temps.getD j none = some v) (hv : 0 ≤ v) :
    ∃ s ∈ find_all_warm_spells temps 1, s.start_idx ≤ j ∧ j ≤ s.end_idx := by
  have hp : presentP warmB (temps.getD j none) = true := by
    rw [hj]
    simpa [presentP, warmB] using hv
  obtain ⟨r, hr, hc1, hc2⟩ := spellsGo_cover warmB temps.length temps le_rfl 0 j hp
  rw [Nat.zero_add] at hc1 hc2
  have hlen : ¬ temps.length < 1 := by
    rcases Nat.eq_zero_or_pos temps.length with h0 | h1
    · rw [List.eq_nil_of_length_eq_zero h0] at hj
      simp [List.getD] at hj
    · omega
  refine ⟨warmSpellOfRun r, ?_, hc1, hc2⟩
  rw [find_all_warm_spells_eq, if_neg hlen]
  exact List.mem_map_of_mem warmSpellOfRun hr

theorem find_all_cold_spells_pairwise (temps : List (Option ℚ)) (md : ℕ) :
    (find_all_cold_spells temps md).Pairwise (fun a b => a.end_idx < b.start_idx) := by
  rw [find_all_cold_spells_eq]
  by_cases hshort : temps.length < md
  · rw [if_pos hshort]
    exact List.Pairwise.nil
  · rw [if_neg hshort]
    exact List.Pairwise.map coldSpellOfRun (fun a b h => h)
      (spellsGo_pairwise coldB md temps.length temps le_rfl 0)

theorem find_all_warm_spells_pairwise (temps : List (Option ℚ)) (md : ℕ) :
    (find_all_warm_spells temps md).Pairwise (fun a b => a.end_idx < b.start_idx) := by
  rw [find_all_warm_spells_eq]
  by_cases hshort : temps.length < md
  · rw [if_pos hshort]
    exact List.Pairwise.nil
  · rw [if_neg hshort]
    exact List.Pairwise.map warmSpellOfRun (fun a b h => h)
      (spellsGo_pairwise warmB md temps.length temps le_rfl 0)

/-- C3: with the unfiltered extraction scans (minimum duration 1), every
present day lies in exactly one cold spell (`< 0`) or exactly one warm
spell (`>= 0`) — never both, never neither — a missing day lies in no
spell of either kind, and the spells of one predicate exactly reconstruct
the set of present days satisfying it, without overlaps. -/
theorem claim_C3 (temps : List (Option ℚ)) (j : ℕ) :
    ((∃ s ∈ find_all_cold_spells temps 1, s.start_idx ≤ j ∧ j ≤ s.end_idx) ↔
        (∃ v, temps.getD j none = some v ∧ v < 0)) ∧
      ((∃ w ∈ find_all_warm_spells temps 1, w.start_idx ≤ j ∧ j ≤ w.end_idx) ↔
        (∃ v, temps.getD j none = some v ∧ 0 ≤ v)) ∧
      (∀ s ∈ find_all_cold_spells temps 1, ∀ t ∈ find_all_cold_spells temps 1,
        s.start_idx ≤ j → j ≤ s.end_idx → t.start_idx ≤ j → j ≤ t.end_idx → s = t) ∧
      (∀ s ∈ find_all_warm_spells temps 1, ∀ t ∈ find_all_warm_spells temps 1,
        s.start_idx ≤ j → j ≤ s.end_idx → t.start_idx ≤ j → j ≤ t.end_idx → s = t) ∧
      ¬((∃ s ∈ find_all_cold_spells temps 1, s.start_idx ≤ j ∧ j ≤ s.end_idx) ∧
        (∃ w ∈ find_all_warm_spells temps 1, w.start_idx ≤ j ∧ j ≤ w.end_idx)) ∧
      (temps.getD j none = none →
        (∀ s ∈ find_all_cold_spells temps 1, ¬(s.start_idx ≤ j ∧ j ≤ s.end_idx)) ∧
        (∀ w ∈ find_all_warm_spells temps 1, ¬(w.start_idx ≤ j ∧ j ≤ w.end_idx))) := by
  have hcold : ∀ s ∈ find_all_cold_spells temps 1, s.start_idx ≤ j → j ≤ s.end_idx →
      ∃ v, temps.getD j none = some v ∧ v < 0 := by
    intro s hs h1 h2
    exact (find_all_cold_spells_mem temps 1 s hs).2.2.2.2 j h1 h2
  have hwarm : ∀ w ∈ find_all_warm_spells temps 1, w.start_idx ≤ j → j ≤ w.end_idx →
      ∃ v, temps.getD j none = some v ∧ 0 ≤ v := by
    intro w hw h1 h2
    exact (find_all_warm_spells_mem temps 1 w hw).2.2.2.2 j h1 h2
  refine ⟨?_, ?_, ?_, ?_, ?_, ?_⟩
  · constructor
    · rintro ⟨s, hs, h1, h2⟩
      exact hcold s hs h1 h2
    · rintro ⟨v, hj, hv⟩
      exact find_all_cold_spells_cover temps j v hj hv
  · constructor
    · rintro ⟨w, hw, h1, h2⟩
      exact hwarm w hw h1 h2
    · rintro ⟨v, hj, hv⟩
      exact find_all_warm_spells_cover temps j v hj hv
  · intro s hs t ht hs1 hs2 ht1 ht2
    by_contra hne
    have hsym : Symmetric (fun a b : Spell => a.end_idx < b.start_idx ∨ b.end_idx < a.start_idx) :=
      fun a b h => h.symm
    have hpw := (find_all_cold_spells_pairwise temps 1).imp
      (fun {a b} h => Or.inl h :
        ∀ {a b : Spell}, a.end_idx < b.start_idx →
          (a.end_idx < b.start_idx ∨ b.end_idx < a.start_idx))
    have := hpw.forall hsym hs ht hne
    omega
  · intro s hs t ht hs1 hs2 ht1 ht2
    by_contra hne
    have hsym : Symmetric
        (fun a b : WarmSpell => a.end_idx < b.start_idx ∨ b.end_idx < a.start_idx) :=
      fun a b h => h.symm
    have hpw := (find_all_warm_spells_pairwise temps 1).imp
      (fun {a b} h => Or.inl h :
        ∀ {a b : WarmSpell}, a.end_idx < b.start_idx →
          (a.end_idx < b.start_idx ∨ b.end_idx < a.start_idx))
    have := hpw.forall hsym hs ht hne
    omega
  · rintro ⟨⟨s, hs, hs1, hs2⟩, ⟨w, hw, hw1, hw2⟩⟩
    obtain ⟨v, hv, hvlt⟩ := hcold s hs hs1 hs2
    obtain ⟨v', hv', hvge⟩ := hwarm w hw hw1 hw2
    rw [hv] at hv'
    cases Option.some.inj hv'
    exact absurd hvge (by exact not_le.mpr hvlt)
  · intro hnone
    constructor
    · rintro s hs ⟨h1, h2⟩
      obtain ⟨v, hv, _⟩ := hcold s hs h1 h2
      rw [hnone] at hv
      exact Option.noConfusion hv
    · rintro w hw ⟨h1, h2⟩
      obtain ⟨v, hv, _⟩ := hwarm w hw h1 h2
      rw [hnone] at hv
      exact Option.noConfusion hv

theorem claim_C3_witness :
    ∃ s ∈ find_all_cold_spells demoSeries 1, s.start_idx ≤ 2 ∧ 2 ≤ s.end_idx :=
  (claim_C3 demoSeries 2).1.mpr ⟨-2, by decide, by norm_num⟩

/-- C5: for every series and every minimum duration `m ≥ 1`, the spell
list of `find_all_cold_spells` with `min_days = m` is exactly the sublist
of the `min_days = 1` spell list keeping the spells of duration ≥ m, with
identical start, end, duration and `min_temp` on each retained spell: the
minimum-duration check is a pure post-filter that does not change which
maximal runs are found or their boundaries. -/
theorem claim_C5 (temps : List (Option ℚ)) (m : ℕ) (hm : 1 ≤ m) :
    find_all_cold_spells temps m =
      (find_all_cold_spells temps 1).filter (fun s => decide (m ≤ s.duration)) :=
  find_all_cold_spells_filter_one temps m hm

theorem claim_C5_witness :
    find_all_cold_spells demoSeries 5 =
      (find_all_cold_spells demoSeries 1).filter (fun s => decide (5 ≤ s.duration)) :=
  claim_C5 demoSeries 5 (by decide)

/-! Return-winter detection: events can only start after the detected
spring onset. -/

theorem rwScanGo_start_ge :
    ∀ (fuel : ℕ) (l : List (Option ℚ)) (i0 : ℕ) (e : RWEvent),
      e ∈ rwScanGo fuel l i0 → i0 ≤ e.start_idx := by
  intro fuel
  induction fuel with
  | zero =>
    intro l i0 e he
    simp [rwScanGo] at he
  | succ f ih =>
    intro l i0 e he
    simp only [rwScanGo] at he
    split_ifs at he with h1 h2
    · exact absurd he (List.not_mem_nil e)
    · rcases List.mem_cons.mp he with rfl | hrest
      · exact le_rfl
      · have := ih _ _ _ hrest
        omega
    · have := ih _ _ _ he
      omega

/-- The spec's return-winter scenario: Mar 1 - Mar 10 all at +1 degree
(so all ≥ 0), then Mar 11 - Mar 13 at -1 degree; index 0 = Mar 1, so
index 10 = Mar 11. -/
def springScen : List (Option ℚ) :=
  List.replicate 10 (some 1) ++ List.replicate 3 (some (-1))

/-- C9: return-winter detection is two-phase: if no spring onset (first
5-day window of daily means all ≥ 0) is found, the year contributes zero
return-winter events rather than an error; every reported event starts
strictly after the onset day; and on the scenario series (Mar 1 - Mar 10
all ≥ 0, then Mar 11 - Mar 13 at -1) the onset is Mar 1 (index 0) and
exactly one return-winter spell is produced, starting Mar 11 (index 10)
with duration 3. -/
theorem claim_C9 :
    (∀ spring : List (Option ℚ), find_spring_onset spring = none →
        find_return_winters_year spring = []) ∧
      (∀ (spring : List (Option ℚ)) (p : ℕ), find_spring_onset spring = some p →
        ∀ e ∈ find_return_winters_year spring, p < e.start_idx) ∧
      find_spring_onset springScen = some 0 ∧
      find_return_winters_year springScen =
        [{ start_idx := 10, duration_days := 3, min_temperature := -1 }] := by
  refine ⟨?_, ?_, by decide, by decide⟩
  · intro spring honset
    rw [find_return_winters_year]
    by_cases h10 : spring.length < 10
    · rw [if_pos h10]
    · rw [if_neg h10, honset]
  · intro spring p honset e he
    rw [find_return_winters_year] at he
    by_cases h10 : spring.length < 10
    · rw [if_pos h10] at he
      exact absurd he (List.not_mem_nil e)
    · rw [if_neg h10, honset] at he
      have := rwScanGo_start_ge _ _ _ e he
      omega

theorem claim_C9_witness :
    find_return_winters_year (List.replicate 10 (some (-1))) = [] :=
  claim_C9.1 (List.replicate 10 (some (-1))) (by decide)

/-! Structure of `analyze_winter_season`. -/

theorem significant_eq (temps : List (Option ℚ)) :
    (find_all_cold_spells temps 3).filter (fun s => decide (5 ≤ s.duration)) =
      find_all_cold_spells temps 5 := by
  rw [find_all_cold_spells_filter_one temps 3 (by norm_num),
      find_all_cold_spells_filter_one temps 5 (by norm_num), List.filter_filter]
  congr 1
  funext s
  by_cases h : 5 ≤ s.duration
  · have h3 : 3 ≤ s.duration := by omega
    simp [h, h3]
  · simp [h]

theorem getLast?_cons_getLastD {α : Type} (x : α) (l : List α) (d : α) :
    (x :: l).getLast? = some ((x :: l).getLastD d) := by
  induction l generalizing x d with
  | nil => rfl
  | cons y l ih =>
    rw [List.getLast?_cons_cons, ih y x]
    nth_rewrite 2 [List.getLastD_cons]
    rfl

theorem getLastD_cons_mem {α : Type} (x : α) (l : List α) (d : α) :
    (x :: l).getLastD d ∈ x :: l := by
  induction l generalizing x d with
  | nil => simp [List.getLastD]
  | cons y l ih =>
    rw [List.getLastD_cons]
    exact List.mem_cons_of_mem x (ih y x)

theorem analyze_winter_season_some_eq (temps : List (Option ℚ)) (cur : Bool)
    (r : SeasonSummary) (h : analyze_winter_season temps cur = some r) :
    find_all_cold_spells temps 3 ≠ [] ∧ find_all_cold_spells temps 5 ≠ [] ∧
      r = buildSeasonSummary temps cur (find_all_cold_spells temps 3)
        (find_all_cold_spells temps 5) := by
  rw [analyze_winter_season] at h
  simp only [significant_eq] at h
  by_cases h1 : (find_all_cold_spells temps 3).isEmpty
  · rw [if_pos h1] at h
    exact absurd h (by simp)
  · rw [if_neg h1] at h
    by_cases h2 : (find_all_cold_spells temps 5).isEmpty
    · rw [if_pos h2] at h
      exact absurd h (by simp)
    · rw [if_neg h2] at h
      refine ⟨?_, ?_, (Option.some.inj h).symm⟩
      · intro hnil
        rw [hnil] at h1
        exact h1 rfl
      · intro hnil
        rw [hnil] at h2
        exact h2 rfl

theorem analyze_winter_season_none (temps : List (Option ℚ)) (cur : Bool)
    (h5 : find_all_cold_spells temps 5 = []) :
    analyze_winter_season temps cur = none := by
  rw [analyze_winter_season]
  simp only [significant_eq]
  by_cases h1 : (find_all_cold_spells temps 3).isEmpty
  · rw [if_pos h1]
  · rw [if_neg h1]
    rw [if_pos (by rw [h5]; rfl)]

theorem build_season_start (t : List (Option ℚ)) (c : Bool) (cs sig : List Spell) :
    (buildSeasonSummary t c cs sig).season_start = (sig.headD dummySpell).start_idx := rfl

theorem build_season_end (t : List (Option ℚ)) (c : Bool) (cs sig : List Spell) :
    (buildSeasonSummary t c cs sig).season_end =
      if c then none else some ((sig.getLastD dummySpell).end_idx) := rfl

theorem build_cold_spells (t : List (Option ℚ)) (c : Bool) (cs sig : List Spell) :
    (buildSeasonSummary t c cs sig).cold_spells = cs := rfl

theorem build_total_days (t : List (Option ℚ)) (c : Bool) (cs sig : List Spell) :
    (buildSeasonSummary t c cs sig).total_days =
      ((t.drop ((sig.headD dummySpell).start_idx)).take
        ((sig.getLastD dummySpell).end_idx + 1 - (sig.headD dummySpell).start_idx)).length := rfl

theorem build_frost_days (t : List (Option ℚ)) (c : Bool) (cs sig : List Spell) :
    (buildSeasonSummary t c cs sig).frost_days =
      (((t.drop ((sig.headD dummySpell).start_idx)).take
          ((sig.getLastD dummySpell).end_idx + 1 - (sig.headD dummySpell).start_idx)).filter
        (presentP coldB)).length := rfl

theorem build_coverage (t : List (Option ℚ)) (c : Bool) (cs sig : List Spell) :
    (buildSeasonSummary t c cs sig).coverage_pct =
      (if 0 < (buildSeasonSummary t c cs sig).total_days
        then pyRound (((buildSeasonSummary t c cs sig).frost_days : ℚ) /
          ((buildSeasonSummary t c cs sig).total_days : ℚ) * 100) 1
        else 0) := rfl

theorem build_fragmentation (t : List (Option ℚ)) (c : Bool) (cs sig : List Spell) :
    (buildSeasonSummary t c cs sig).fragmentation_index =
      (if 0 < (buildSeasonSummary t c cs sig).total_days
        then pyRound
          ((((find_all_warm_spells
                ((t.drop ((sig.headD dummySpell).start_idx)).take
                  ((sig.getLastD dummySpell).end_idx + 1 - (sig.headD dummySpell).start_idx))
                3).map (fun s => s.duration)).sum : ℚ) /
            ((buildSeasonSummary t c cs sig).total_days : ℚ)) 2
        else 0) := rfl

theorem build_longest (t : List (Option ℚ)) (c : Bool) (cs sig : List Spell) :
    (buildSeasonSummary t c cs sig).longest_cold_spell_days =
        ((cs.drop 1).foldl (fun b s => if b.duration < s.duration then s else b)
          (cs.headD dummySpell)).duration ∧
      (buildSeasonSummary t c cs sig).longest_cold_spell_start =
        ((cs.drop 1).foldl (fun b s => if b.duration < s.duration then s else b)
          (cs.headD dummySpell)).start_idx := ⟨rfl, rfl⟩

theorem build_coldest (t : List (Option ℚ)) (c : Bool) (cs sig : List Spell) :
    (buildSeasonSummary t c cs sig).coldest_temp =
      listMin (cs.map (fun s => s.min_temp)) := rfl

theorem analyze_winter_season_eq_some (temps : List (Option ℚ)) (cur : Bool)
    (h5 : find_all_cold_spells temps 5 ≠ []) :
    analyze_winter_season temps cur =
      some (buildSeasonSummary temps cur (find_all_cold_spells temps 3)
        (find_all_cold_spells temps 5)) := by
  have h3 : find_all_cold_spells temps 3 ≠ [] := by
    intro h3
    apply h5
    rw [← significant_eq, h3]
    rfl
  rw [analyze_winter_season]
  simp only [significant_eq]
  rw [if_neg (fun hh => h3 (by simpa using hh)),
      if_neg (fun hh => h5 (by simpa using hh))]

/-- C6: `analyze_winter_season` returns `none` (no record, not an error)
exactly when the series has no cold spell of duration ≥ 5; when it
returns a record, `season_start` is the start of the first ≥ 5-day cold
spell, `season_end` is `none` for the currently ongoing season, and
otherwise is the end of the last ≥ 5-day cold spell. -/
theorem claim_C6 (temps : List (Option ℚ)) (cur : Bool) :
    (analyze_winter_season temps cur = none ↔ find_all_cold_spells temps 5 = []) ∧
      (∀ r, analyze_winter_season temps cur = some r →
        ∃ s0 stl, find_all_cold_spells temps 5 = s0 :: stl ∧
          r.season_start = s0.start_idx ∧
          (cur = true → r.season_end = none) ∧
          (cur = false → ∃ sl, (find_all_cold_spells temps 5).getLast? = some sl ∧
            r.season_end = some sl.end_idx)) := by
  constructor
  · constructor
    · intro h
      by_contra h5
      rw [analyze_winter_season_eq_some temps cur h5] at h
      exact Option.noConfusion h
    · exact analyze_winter_season_none temps cur
  · intro r hr
    obtain ⟨h3, h5, rfl⟩ := analyze_winter_season_some_eq temps cur r hr
    obtain ⟨s0, stl, heq⟩ : ∃ s0 stl, find_all_cold_spells temps 5 = s0 :: stl := by
      cases hv : find_all_cold_spells temps 5 with
      | nil => exact absurd hv h5
      | cons a b => exact ⟨a, b, rfl⟩
    refine ⟨s0, stl, heq, ?_, ?_, ?_⟩
    · rw [build_season_start, heq]
      rfl
    · intro hcur
      rw [build_season_end, hcur, if_pos rfl]
    · intro hcur
      rw [build_season_end, hcur, heq]
      exact ⟨(s0 :: stl).getLastD dummySpell,
        getLast?_cons_getLastD s0 stl dummySpell, rfl⟩

/-- A five-day uniformly cold series used to exercise the aggregator. -/
def coldWeek : List (Option ℚ) := List.replicate 5 (some (-1))

theorem coldWeek_find5 : find_all_cold_spells coldWeek 5 =
    [{ start_idx := 0, end_idx := 4, duration := 5, min_temp := -1 }] := by
  rw [find_all_cold_spells_eq, if_neg (by decide),
    show spellsGo coldB 5 coldWeek 0 none = [⟨0, 4, [-1, -1, -1, -1, -1]⟩] from by decide]
  simp only [List.map_cons, List.map_nil, coldSpellOfRun]
  norm_num [show listMin [(-1 : ℚ), -1, -1, -1, -1] = -1 from by decide, pyRound, round_eq]

theorem claim_C6_witness :
    analyze_winter_season ([] : List (Option ℚ)) false = none ∧
      ∃ s0 stl, find_all_cold_spells coldWeek 5 = s0 :: stl ∧
        (buildSeasonSummary coldWeek false (find_all_cold_spells coldWeek 3)
          (find_all_cold_spells coldWeek 5)).season_start = s0.start_idx := by
  constructor
  · exact (claim_C6 [] false).1.mpr (by decide)
  · have hsome := analyze_winter_season_eq_some coldWeek false
      (by rw [coldWeek_find5]; exact List.cons_ne_nil _ _)
    obtain ⟨s0, stl, heq, hstart, _⟩ := (claim_C6 coldWeek false).2 _ hsome
    exact ⟨s0, stl, heq, hstart⟩

/-! Python's `max(cold_spells, key=duration)` keeps the first maximal
element; `min` over the spells' statistics is the fold of `min`. -/

theorem foldl_longest (tl : List Spell) (b : Spell) :
    ∃ pre post,
      b :: tl = pre ++
          (tl.foldl (fun b s => if b.duration < s.duration then s else b) b) :: post ∧
        (∀ t ∈ pre, t.duration <
          (tl.foldl (fun b s => if b.duration < s.duration then s else b) b).duration) ∧
        ∀ t ∈ b :: tl, t.duration ≤
          (tl.foldl (fun b s => if b.duration < s.duration then s else b) b).duration := by
  induction tl generalizing b with
  | nil =>
    refine ⟨[], [], rfl, by simp, ?_⟩
    intro t ht
    rw [List.mem_singleton.mp ht]
    exact le_rfl
  | cons s tl ih =>
    by_cases hbs : b.duration < s.duration
    · obtain ⟨pre', post', heq, hlt, hle⟩ := ih s
      have hfold : (s :: tl).foldl (fun b s => if b.duration < s.duration then s else b) b =
          tl.foldl (fun b s => if b.duration < s.duration then s else b) s := by
        simp [List.foldl_cons, if_pos hbs]
      rw [hfold]
      refine ⟨b :: pre', post', by rw [List.cons_append, ← heq], ?_, ?_⟩
      · intro t ht
        rcases List.mem_cons.mp ht with rfl | ht'
        · exact lt_of_lt_of_le hbs (hle s (List.mem_cons_self s tl))
        · exact hlt t ht'
      · intro t ht
        rcases List.mem_cons.mp ht with rfl | ht'
        · exact le_of_lt (lt_of_lt_of_le hbs (hle s (List.mem_cons_self s tl)))
        · exact hle t ht'
    · obtain ⟨pre', post', heq, hlt, hle⟩ := ih b
      have hfold : (s :: tl).foldl (fun b s => if b.duration < s.duration then s else b) b =
          tl.foldl (fun b s => if b.duration < s.duration then s else b) b := by
        simp [List.foldl_cons, if_neg hbs]
      rw [hfold]
      set res := tl.foldl (fun b s => if b.duration < s.duration then s else b) b with hres
      have hble : b.duration ≤ res.duration := hle b (List.mem_cons_self b tl)
      have hsle : s.duration ≤ res.duration := le_trans (by omega) hble
      cases pre' with
      | nil =>
        have hb : b = res := by
          rw [List.nil_append] at heq
          injection heq with h1 h2
        refine ⟨[], s :: tl, by rw [List.nil_append, ← hb], by simp, ?_⟩
        intro t ht
        rcases List.mem_cons.mp ht with rfl | ht'
        · exact hble
        · rcases List.mem_cons.mp ht' with rfl | ht''
          · exact hsle
          · exact hle t (List.mem_cons_of_mem b ht'')
      | cons p pre'' =>
        rw [List.cons_append] at heq
        obtain ⟨h1, htl⟩ : b = p ∧ tl = pre'' ++ res :: post' := by
          injection heq with ha hb2
          exact ⟨ha, hb2⟩
        refine ⟨b :: s :: pre'', post', ?_, ?_, ?_⟩
        · rw [htl]
          simp
        · intro t ht
          rcases List.mem_cons.mp ht with rfl | ht'
          · refine hlt t ?_
            rw [h1]
            exact List.mem_cons_self p pre''
          · rcases List.mem_cons.mp ht' with rfl | ht''
            · have hplt := hlt p (List.mem_cons_self p pre'')
              have hbp : b.duration = p.duration := by rw [h1]
              omega
            · exact hlt t (List.mem_cons_of_mem p ht'')
        · intro t ht
          rcases List.mem_cons.mp ht with rfl | ht'
          · exact hble
          · rcases List.mem_cons.mp ht' with rfl | ht''
            · exact hsle
            · exact hle t (List.mem_cons_of_mem b ht'')

theorem foldl_min_le_init (x : ℚ) (xs : List ℚ) : xs.foldl min x ≤ x := by
  induction xs generalizing x with
  | nil => exact le_rfl
  | cons y ys ih => exact le_trans (ih (min x y)) (min_le_left x y)

theorem foldl_min_le_mem (x : ℚ) (xs : List ℚ) : ∀ y ∈ xs, xs.foldl min x ≤ y := by
  induction xs generalizing x with
  | nil => intro y hy; exact absurd hy (List.not_mem_nil y)
  | cons z zs ih =>
    intro y hy
    rcases List.mem_cons.mp hy with rfl | hy'
    · exact le_trans (foldl_min_le_init (min x y) zs) (min_le_right x y)
    · exact ih (min x z) y hy'

theorem foldl_min_mem (x : ℚ) (xs : List ℚ) : xs.foldl min x ∈ x :: xs := by
  induction xs generalizing x with
  | nil => exact List.mem_singleton.mpr rfl
  | cons z zs ih =>
    have := ih (min x z)
    rcases List.mem_cons.mp this with heq | hmem
    · rcases min_choice x z with hx | hz
      · rw [List.foldl_cons, heq, hx]
        exact List.mem_cons_self x (z :: zs)
      · rw [List.foldl_cons, heq, hz]
        exact List.mem_cons_of_mem x (List.mem_cons_self z zs)
    · exact List.mem_cons_of_mem x (List.mem_cons_of_mem z hmem)

/-- C10: in every emitted winter record, `longest_cold_spell_days` (and
its start) and `coldest_temp` range over all cold spells of duration ≥ 3
of the full season series — the record even stores that full spell list —
with the longest spell being the first spell of maximal duration (ties go
to the earliest) and `coldest_temp` the minimum of the spells' own
`min_temp` statistics, not a recomputation from raw values. -/
theorem claim_C10 (temps : List (Option ℚ)) (cur : Bool) (r : SeasonSummary)
    (hr : analyze_winter_season temps cur = some r) :
    (∃ pre post s, find_all_cold_spells temps 3 = pre ++ s :: post ∧
        (∀ t ∈ pre, t.duration < s.duration) ∧
        (∀ t ∈ find_all_cold_spells temps 3, t.duration ≤ s.duration) ∧
        r.longest_cold_spell_days = s.duration ∧
        r.longest_cold_spell_start = s.start_idx) ∧
      (r.coldest_temp ∈ (find_all_cold_spells temps 3).map Spell.min_temp ∧
        ∀ t ∈ find_all_cold_spells temps 3, r.coldest_temp ≤ t.min_temp) ∧
      r.cold_spells = find_all_cold_spells temps 3 := by
  obtain ⟨h3, h5, rfl⟩ := analyze_winter_season_some_eq temps cur r hr
  obtain ⟨c0, ctl, heq3⟩ : ∃ c0 ctl, find_all_cold_spells temps 3 = c0 :: ctl := by
    cases hv : find_all_cold_spells temps 3 with
    | nil => exact absurd hv h3
    | cons a b => exact ⟨a, b, rfl⟩
  refine ⟨?_, ?_, build_cold_spells _ _ _ _⟩
  · obtain ⟨pre, post, hsplit, hlt, hle⟩ := foldl_longest ctl c0
    refine ⟨pre, post, _, by rw [heq3, hsplit], hlt, ?_, ?_, ?_⟩
    · intro t ht
      rw [heq3] at ht
      exact hle t ht
    · rw [(build_longest temps cur (find_all_cold_spells temps 3)
        (find_all_cold_spells temps 5)).1, heq3]
      rfl
    · rw [(build_longest temps cur (find_all_cold_spells temps 3)
        (find_all_cold_spells temps 5)).2, heq3]
      rfl
  · rw [build_coldest, heq3]
    constructor
    · rw [show listMin ((c0 :: ctl).map fun s => s.min_temp) =
          ((ctl.map fun s => s.min_temp).foldl min c0.min_temp) from rfl]
      exact foldl_min_mem c0.min_temp (ctl.map fun s => s.min_temp)
    · intro t ht
      rcases List.mem_cons.mp ht with rfl | ht'
      · exact foldl_min_le_init _ _
      · exact foldl_min_le_mem _ _ t.min_temp (List.mem_map_of_mem _ ht')

theorem claim_C10_witness :
    (buildSeasonSummary coldWeek false (find_all_cold_spells coldWeek 3)
        (find_all_cold_spells coldWeek 5)).cold_spells =
      find_all_cold_spells coldWeek 3 :=
  (claim_C10 coldWeek false _ (analyze_winter_season_eq_some coldWeek false
    (by rw [coldWeek_find5]; exact List.cons_ne_nil _ _))).2.2

/-- C7: in every emitted winter record, restricting to the window from the
season start (first ≥ 5-day cold spell's start) to the last ≥ 5-day cold
spell's end inclusive: `coverage_pct` is (days with value < 0 in the
window) / (window days) × 100 rounded to 1 decimal, and
`fragmentation_index` is (sum of durations of the ≥ 3-day warm spells a
second complementary scan finds in the window) / (window days) rounded to
2 decimals; instantiating the coverage formula at 7 cold days out of 10
gives 70.0. -/
theorem claim_C7 (temps : List (Option ℚ)) (cur : Bool) (r : SeasonSummary)
    (hr : analyze_winter_season temps cur = some r) :
    (∃ s0 stl sl, find_all_cold_spells temps 5 = s0 :: stl ∧
        (find_all_cold_spells temps 5).getLast? = some sl ∧
        r.total_days =
          ((temps.drop s0.start_idx).take (sl.end_idx + 1 - s0.start_idx)).length ∧
        0 < r.total_days ∧
        r.frost_days =
          (((temps.drop s0.start_idx).take (sl.end_idx + 1 - s0.start_idx)).filter
            (presentP coldB)).length ∧
        r.coverage_pct = pyRound ((r.frost_days : ℚ) / (r.total_days : ℚ) * 100) 1 ∧
        r.fragmentation_index = pyRound
          ((((find_all_warm_spells
              ((temps.drop s0.start_idx).take (sl.end_idx + 1 - s0.start_idx)) 3).map
              (fun s => s.duration)).sum : ℚ) / (r.total_days : ℚ)) 2) ∧
      pyRound ((7 : ℚ) / 10 * 100) 1 = 70 := by
  obtain ⟨h3, h5ne, rfl⟩ := analyze_winter_season_some_eq temps cur r hr
  obtain ⟨s0, stl, heq⟩ : ∃ s0 stl, find_all_cold_spells temps 5 = s0 :: stl := by
    cases hv : find_all_cold_spells temps 5 with
    | nil => exact absurd hv h5ne
    | cons a b => exact ⟨a, b, rfl⟩
  set sl := (s0 :: stl).getLastD dummySpell with hsl
  have hgl : (find_all_cold_spells temps 5).getLast? = some sl := by
    rw [heq]
    exact getLast?_cons_getLastD s0 stl dummySpell
  have hs0mem : s0 ∈ find_all_cold_spells temps 5 := by
    rw [heq]
    exact List.mem_cons_self _ _
  have hslmem : sl ∈ find_all_cold_spells temps 5 := by
    rw [heq]
    exact getLastD_cons_mem s0 stl dummySpell
  obtain ⟨_, hd0, he0, hl0, _⟩ := find_all_cold_spells_mem temps 5 s0 hs0mem
  obtain ⟨_, hdl, hel, hll, _⟩ := find_all_cold_spells_mem temps 5 sl hslmem
  have horder : s0.start_idx ≤ sl.end_idx := by
    rcases List.mem_cons.mp (getLastD_cons_mem s0 stl dummySpell) with hcase | hcase
    · rw [← hsl] at hcase
      rw [hcase]
      omega
    · have hpw := find_all_cold_spells_pairwise temps 5
      rw [heq] at hpw
      have hrel := (List.pairwise_cons.mp hpw).1 sl (by rw [← hsl] at hcase; exact hcase)
      omega
  have hwinlen : ((temps.drop s0.start_idx).take (sl.end_idx + 1 - s0.start_idx)).length =
      sl.end_idx + 1 - s0.start_idx := by
    rw [List.length_take, List.length_drop]
    omega
  have hpos : 0 < ((temps.drop s0.start_idx).take (sl.end_idx + 1 - s0.start_idx)).length := by
    rw [hwinlen]
    omega
  have hhead : (find_all_cold_spells temps 5).headD dummySpell = s0 := by
    rw [heq]
    rfl
  have hlastD : (find_all_cold_spells temps 5).getLastD dummySpell = sl := by
    rw [heq]
  have htds : (buildSeasonSummary temps cur (find_all_cold_spells temps 3)
      (find_all_cold_spells temps 5)).total_days =
      ((temps.drop s0.start_idx).take (sl.end_idx + 1 - s0.start_idx)).length := by
    rw [build_total_days, hhead, hlastD]
  have hfds : (buildSeasonSummary temps cur (find_all_cold_spells temps 3)
      (find_all_cold_spells temps 5)).frost_days =
      (((temps.drop s0.start_idx).take (sl.end_idx + 1 - s0.start_idx)).filter
        (presentP coldB)).length := by
    rw [build_frost_days, hhead, hlastD]
  refine ⟨⟨s0, stl, sl, heq, hgl, htds, by rw [htds]; exact hpos, hfds, ?_, ?_⟩,
    by norm_num [pyRound, round_eq]⟩
  · rw [build_coverage, if_pos (by rw [htds]; exact hpos)]
  · rw [build_fragmentation, if_pos (by rw [htds]; exact hpos), hhead, hlastD]

theorem claim_C7_witness :
    ∃ s0 stl sl, find_all_cold_spells coldWeek 5 = s0 :: stl ∧
      (find_all_cold_spells coldWeek 5).getLast? = some sl ∧
      (buildSeasonSummary coldWeek false (find_all_cold_spells coldWeek 3)
          (find_all_cold_spells coldWeek 5)).total_days =
        ((coldWeek.drop s0.start_idx).take (sl.end_idx + 1 - s0.start_idx)).length := by
  obtain ⟨⟨s0, stl, sl, heq, hgl, htds, _⟩, _⟩ :=
    claim_C7 coldWeek false _ (analyze_winter_season_eq_some coldWeek false
      (by rw [coldWeek_find5]; exact List.cons_ne_nil _ _))
  exact ⟨s0, stl, sl, heq, hgl, htds⟩

end FmiWeather
